import Mathlib

/-
Verification of the knowledge-extraction pipeline in
backend/app/services/knowledge_extractor.py (class KnowledgePointExtractor).

The Python source is shallowly embedded: text is List Char (Python str
indexes code points, as List Char does), dictionaries with fixed key sets
are structures, database rows are records, and the regular expressions of
the source are rendered as explicit recursive scanners whose semantics
follow Python's re module (leftmost match, non-overlapping finditer, greedy
and lazy quantifiers, the MULTILINE and DOTALL flags) for the pattern at
hand.  Each definition names the source function it embeds.
-/

set_option maxRecDepth 100000

namespace Vault

/-! ## Python string primitives -/

/-- Characters treated as whitespace by Python's str.strip and by the regex
class for whitespace in Unicode mode: ASCII whitespace plus the common
Unicode spaces that occur in the texts this service handles
(U+00A0 no-break space, U+3000 ideographic space). -/
def isPySpace (c : Char) : Bool :=
  c = ' ' || c = '\t' || c = '\n' || c = '\r' ||
  c = Char.ofNat 0x0b || c = Char.ofNat 0x0c ||
  c = Char.ofNat 0xa0 || c = Char.ofNat 0x3000

/-- Python str.strip(): drop whitespace from both ends. -/
def pyStrip (cs : List Char) : List Char :=
  ((cs.dropWhile isPySpace).reverse.dropWhile isPySpace).reverse

/-- Helper for splitting at newlines, carrying the current piece reversed. -/
def splitNLAux : List Char → List Char → List (List Char)
  | [], acc => [acc.reverse]
  | c :: cs, acc =>
    if c = '\n' then acc.reverse :: splitNLAux cs []
    else splitNLAux cs (c :: acc)

/-- Python str.split on a newline: all pieces, including empty ones. -/
def splitNL (cs : List Char) : List (List Char) :=
  splitNLAux cs []

def isAsciiDigit (c : Char) : Bool := '0' ≤ c && c ≤ '9'

def isAsciiAlpha (c : Char) : Bool :=
  ('a' ≤ c && c ≤ 'z') || ('A' ≤ c && c ≤ 'Z')

/-- The regex range for CJK ideographs used throughout the source. -/
def isCJK (c : Char) : Bool := Char.ofNat 0x4e00 ≤ c && c ≤ Char.ofNat 0x9fa5

/-- Python's two-argument min on rationals (floats in the source are modelled
as exact rationals). -/
def pyMin (a b : ℚ) : ℚ := if a ≤ b then a else b

/-! ## Keyword Summarizer: _extract_keywords_advanced -/

/-- Accumulator pass for maximal runs of characters satisfying p. -/
def runsByAux (p : Char → Bool) : List Char → List Char → List (List Char)
  | [], acc => if acc.isEmpty then [] else [acc.reverse]
  | c :: cs, acc =>
    if p c then runsByAux p cs (c :: acc)
    else if acc.isEmpty then runsByAux p cs [] else acc.reverse :: runsByAux p cs []

/-- Maximal runs of characters satisfying p, in text order. -/
def maximalRuns (p : Char → Bool) (cs : List Char) : List (List Char) :=
  runsByAux p cs []

/-- re.findall of CJK runs of length at least 2: each maximal CJK run of
length at least 2 is one (greedy) match. -/
def cjkRuns (cs : List Char) : List (List Char) :=
  (maximalRuns isCJK cs).filter (fun w => 2 ≤ w.length)

/-- re.findall of ASCII-letter runs of length at least 3. -/
def latinRuns (cs : List Char) : List (List Char) :=
  (maximalRuns isAsciiAlpha cs).filter (fun w => 3 ≤ w.length)

/-- One step of the word_freq dictionary update: Python dicts preserve
insertion order, so a fresh word is appended and an existing word has its
count bumped in place. -/
def bumpWord (m : List (List Char × Nat)) (w : List Char) : List (List Char × Nat) :=
  if m.any (fun e => e.1 = w) then
    m.map (fun e => if e.1 = w then (e.1, e.2 + 1) else e)
  else m ++ [(w, 1)]

/-- The candidate words of _extract_keywords_advanced: all CJK runs (in text
order) followed by all Latin runs (in text order), keeping those of length
2 to 20 — the guard inside the counting loop. -/
def candidateWords (cs : List Char) : List (List Char) :=
  (cjkRuns cs ++ latinRuns cs).filter (fun w => 2 ≤ w.length && w.length ≤ 20)

/-- word_freq of _extract_keywords_advanced, as an insertion-ordered
association list. -/
def wordFreq (cs : List Char) : List (List Char × Nat) :=
  (candidateWords cs).foldl bumpWord []

/-- Insert an entry after all entries with a count at least as large.
Together with the left fold below this models Python's sorted(...,
key=count, reverse=True), which is stable: entries with equal counts keep
their dictionary (insertion) order. -/
def insertByCount (x : List Char × Nat) :
    List (List Char × Nat) → List (List Char × Nat)
  | [] => [x]
  | y :: ys => if y.2 < x.2 then x :: y :: ys else y :: insertByCount x ys

/-- sorted(word_freq.items(), key=count, reverse=True): stable descending
sort by count. -/
def sortByCountDesc (l : List (List Char × Nat)) : List (List Char × Nat) :=
  l.foldl (fun acc x => insertByCount x acc) []

/-- _extract_keywords_advanced: CJK runs then Latin runs, length 2 to 20,
frequency counted, stable-sorted by descending count, top 15. -/
def extract_keywords_advanced (cs : List Char) : List (List Char) :=
  ((sortByCountDesc (wordFreq cs)).take 15).map Prod.fst

/-! ## Graph Builder: _build_complete_graph -/

/-- A persisted knowledge unit as the graph builder sees it: its database id
and its keyword list. -/
structure KPoint where
  id : Nat
  keywords : List (List Char)
deriving DecidableEq

/-- One KnowledgeRelation row.  The source formats description as the string
"关键词: " followed by the comma-joined shared keywords; the keyword list
itself is kept here.  Python iterates a set in an unspecified order, so the
shared keywords are fixed to first-occurrence order of the source unit's
keyword list. -/
structure KRelation where
  source_point_id : Nat
  target_point_id : Nat
  relation_strength : ℚ
  description : List (List Char)
deriving DecidableEq

/-- First-occurrence deduplication (helper): skip words already seen. -/
def distinctKeepAux (seen : List (List Char)) : List (List Char) → List (List Char)
  | [] => []
  | w :: ws =>
    if w ∈ seen then distinctKeepAux seen ws
    else w :: distinctKeepAux (w :: seen) ws

/-- First-occurrence deduplication: the membership view of Python's set(). -/
def distinctKeep (l : List (List Char)) : List (List Char) :=
  distinctKeepAux [] l

/-- set(p1.keywords) & set(p2.keywords): the distinct keywords of a that
also occur in b. -/
def overlapOf (a b : List (List Char)) : List (List Char) :=
  (distinctKeep a).filter (fun w => w ∈ b)

/-- The body of the doubly-nested loop of _build_complete_graph for one
ordered pair (p, q) with p extracted earlier than q: skip when either
keyword list is empty or the ids coincide, otherwise build a relation
whenever at least one keyword is shared. -/
def edgeFor (p q : KPoint) : Option KRelation :=
  if p.keywords = [] then none
  else if q.keywords = [] || p.id = q.id then none
  else if 1 ≤ (overlapOf p.keywords q.keywords).length then
    some { source_point_id := p.id
           target_point_id := q.id
           relation_strength :=
             pyMin (((overlapOf p.keywords q.keywords).length : ℚ) / 3) 1
           description := (overlapOf p.keywords q.keywords).take 5 }
  else none

/-- _build_complete_graph: for i, p1 in enumerate(points), for p2 in
points[i+1:], add the relation for (p1, p2) when edgeFor produces one.
The outer continue on an empty keyword list is absorbed into edgeFor. -/
def build_complete_graph : List KPoint → List KRelation
  | [] => []
  | p :: ps => ps.filterMap (edgeFor p) ++ build_complete_graph ps

/-! ## Persistence Writer: _save_all_points -/

/-- One knowledge-unit draft: the dict built by
_extract_all_points_from_section.  Keys that some drafts omit are Options
or carry the default that _save_all_points supplies via .get. -/
structure Draft where
  name : List Char
  content : List Char := []
  fullContent : Option (List Char) := none
  dtype : List Char := "concept".data
  level : Nat
  order : Nat := 0
  parentName : Option (List Char) := none
  importance : Nat := 3
  keywords : List (List Char) := []
deriving DecidableEq, Inhabited

/-- One persisted KnowledgePoint row.  Database-assigned primary keys are
modelled as consecutive naturals in insertion order: only their
distinctness and recency matter to the claims. -/
structure SavedUnit where
  id : Nat
  point_name : List Char
  point_content : List Char
  point_type : List Char
  level : Nat
  parent_id : Option Nat
  keywords : List (List Char)
  importance : Nat
  order_index : Nat
  full_content : Option (List Char)
deriving DecidableEq, Inhabited

/-- One KnowledgeBase search-index row (course/document ids and the
document_type, identical on every row of a run, are omitted). -/
structure KBEntry where
  chunk_text : List Char
  chunk_index : Nat
  meta_name : List Char
  meta_type : List Char
  meta_level : Nat
  meta_keywords : List (List Char)
deriving DecidableEq, Inhabited

/-- name_to_id.get(point.get('parent_name')): a missing parent_name key is
Python None, which is never a dict key, so it looks up to None.  The map is
kept as an association list with the newest binding first, so find? models
dict assignment overwriting older bindings. -/
def lookupName (m : List (List Char × Nat)) : Option (List Char) → Option Nat
  | none => none
  | some n => (m.find? (fun e => e.1 = n)).map Prod.snd

/-- extra_info is the full-content dict only when point.get('full_content')
is truthy (a nonempty string), truncated to 50000. -/
def truthyFull : Option (List Char) → Option (List Char)
  | none => none
  | some fc => if fc = [] then none else some (fc.take 50000)

/-- The KnowledgePoint(...) constructor call inside _save_all_points, with
the write-time bounds name[:500], content[:10000], keywords[:15],
full_content[:50000]. -/
def mkUnit (d : Draft) (i : Nat) (pid : Option Nat) : SavedUnit :=
  { id := i
    point_name := d.name.take 500
    point_content := d.content.take 10000
    point_type := d.dtype
    level := d.level
    parent_id := pid
    keywords := d.keywords.take 15
    importance := d.importance
    order_index := d.order
    full_content := truthyFull d.fullContent }

/-- The KnowledgeBase(...) constructor call inside _save_all_points:
chunk_text is content[:5000] and chunk_index is the draft's order value. -/
def mkKB (d : Draft) : KBEntry :=
  { chunk_text := d.content.take 5000
    chunk_index := d.order
    meta_name := d.name.take 500
    meta_type := d.dtype
    meta_level := d.level
    meta_keywords := d.keywords.take 15 }

/-- The iteration order of _save_all_points: five passes over the draft
list, by level 1 to 5; within a pass, the drafts keep list order.  Drafts
whose level is outside 1..5 are never written. -/
def processOrder (ds : List Draft) : List Draft :=
  (([1, 2, 3, 4, 5] : List Nat).map (fun l => ds.filter (fun d => d.level = l))).flatten

/-- The write loop of _save_all_points over an already-ordered draft list:
each draft resolves its parent in the current name_to_id map, is written
with the next id, and then binds its own (untruncated) name to its id,
overwriting any older binding. -/
def saveList (nid : Nat) (m : List (List Char × Nat)) :
    List Draft → List (SavedUnit × KBEntry)
  | [] => []
  | d :: rest =>
    (mkUnit d nid (lookupName m d.parentName), mkKB d) ::
      saveList (nid + 1) ((d.name, nid) :: m) rest

/-- _save_all_points: the persisted units and their search-index entries. -/
def save_all_points (ds : List Draft) : List SavedUnit × List KBEntry :=
  let l := saveList 0 [] (processOrder ds)
  (l.map Prod.fst, l.map Prod.snd)

/-! ## Regex scanner toolkit

Each regex of the source is rendered as a matcher that, at a given text
position, either fails or returns the payload (the capture groups the
caller reads), the whole match, and the remaining text.  The finditer
driver below then reproduces re.finditer: it tries positions left to
right and resumes after the end of each (non-overlapping) match.  The
driver tracks whether the current position is at a line start, which the
MULTILINE-anchored patterns consult. -/

/-- One regex match: the payload the caller reads, the whole match
(group 0, always nonempty for the patterns at hand), and the rest of the
text after the match. -/
structure MRes (α : Type) where
  val : α
  g0 : List Char
  rest : List Char

/-- A lazy group with a one-character minimum, as in the pattern fragments
built from a dot-plus-question: consume one character, then stop at the
first subsequent position where the stop predicate (the lookahead
alternation, including any end-of-line or end-of-text dollar) holds. -/
def lazyGroup (stop : List Char → Bool) : List Char → Option (List Char × List Char)
  | [] => none
  | c :: cs =>
    if stop cs then some ([c], cs)
    else
      match lazyGroup stop cs with
      | some (g, r) => some (c :: g, r)
      | none => none

/-- re.finditer: scan positions left to right, collect non-overlapping
matches, resume after each match.  The Bool passed to the matcher is true
exactly at line starts (position 0 or just after a newline).  Fuel is the
text length plus one; every step consumes at least one character. -/
def finditer (m : Bool → List Char → Option (MRes α)) :
    Nat → Bool → List Char → List α
  | 0, _, _ => []
  | _ + 1, _, [] => []
  | fuel + 1, atLS, c :: rest =>
    match m atLS (c :: rest) with
    | some r => r.val :: finditer m fuel (r.g0.getLast? = some '\n') r.rest
    | none => finditer m fuel (c = '\n') rest

/-- Try candidate lengths in the given order (descending for a greedy
bounded quantifier), returning the first success. -/
def firstSomeNat (f : Nat → Option α) : List Nat → Option α
  | [] => none
  | k :: ks =>
    match f k with
    | some a => some a
    | none => firstSomeNat f ks

/-- A dot-quantifier candidate without DOTALL: exactly k characters, none
of them a newline. -/
def nlFreeTake (cs : List Char) (k : Nat) : Option (List Char) :=
  let t := cs.take k
  if t.length = k && '\n' ∉ t then some t else none

/-- The descending list hi, hi-1, ..., lo (greedy try order). -/
def descRange (lo hi : Nat) : List Nat :=
  (List.range' lo (hi + 1 - lo)).reverse

/-! ## Point Extractor: the four sub-extractors -/

/-- The colon characters accepted by the source patterns. -/
def isColonCh (c : Char) : Bool := c = '：' || c = ':'

/-! ### _extract_list_items

Both patterns carry re.MULTILINE and no DOTALL, so a match lives inside a
single line: optional leading whitespace, the marker, at least one
whitespace character, then the lazily-captured rest of the line.  A match
whose capture strips to the empty string (marker followed by whitespace
only; the regex backtracks the whitespace-plus down to leave one character
for the capture) is dropped by the `if item_text` guard, which the
conditions below reproduce. -/

def bulletCh (c : Char) : Bool := c = '•' || c = '·' || c = '-' || c = '*'

def listNumSep (c : Char) : Bool := c = '.' || c = ')' || c = '、'

/-- One line against the bullet pattern: whitespace*, a bullet glyph,
whitespace+, capture to end of line; kept when the stripped capture is
nonempty. -/
def listItemBullet (line : List Char) : Option (List Char) :=
  match line.dropWhile isPySpace with
  | b :: rest =>
    if bulletCh b &&
        (match rest.head? with | some c => isPySpace c | none => false) &&
        pyStrip rest ≠ [] then
      some (pyStrip rest)
    else none
  | [] => none

/-- One line against the numbered pattern: whitespace*, digits+, one of
period, close-paren or enumeration comma, whitespace+, capture to end of
line; kept when the stripped capture is nonempty. -/
def listItemNumbered (line : List Char) : Option (List Char) :=
  let l1 := line.dropWhile isPySpace
  if (l1.takeWhile isAsciiDigit).isEmpty then none
  else
    match l1.dropWhile isAsciiDigit with
    | s :: rest =>
      if listNumSep s &&
          (match rest.head? with | some c => isPySpace c | none => false) &&
          pyStrip rest ≠ [] then
        some (pyStrip rest)
      else none
    | [] => none

/-- _extract_list_items: all bullet-pattern matches (in line order), then
all numbered-pattern matches, as (title, content) with title item[:100],
capped at 50. -/
def extract_list_items (cs : List Char) : List (List Char × List Char) :=
  let lines := splitNL cs
  ((lines.filterMap listItemBullet ++ lines.filterMap listItemNumbered).map
    (fun t => (t.take 100, t))).take 50

/-! ### _extract_examples

Both patterns carry re.DOTALL and no MULTILINE: the dollar in the
lookahead matches only at the end of the text or just before one final
trailing newline, and the lazy capture may cross lines. -/

def exOpenBr (c : Char) : Bool := c = '【' || c = '['
def exCloseBr (c : Char) : Bool := c = '】' || c = ']'

/-- The lookahead of the first example pattern: an optional opening
bracket followed by the character 例 (the digit and closing-bracket parts
of the lookahead are optional, so only 例 decides). -/
def exMark1At : List Char → Bool
  | c :: rest => c = '例' || (exOpenBr c && rest.head? = some '例')
  | [] => false

def ex1Stop (s : List Char) : Bool := s.isEmpty || s = ['\n'] || exMark1At s

/-- Consume 例, digits*, an optional closing bracket, and a colon. -/
def exAfterMarker : List Char → Option (List Char)
  | '例' :: r1 =>
    match r1.dropWhile isAsciiDigit with
    | c :: r3 =>
      if isColonCh c then some r3
      else if exCloseBr c then
        match r3 with
        | c2 :: r4 => if isColonCh c2 then some r4 else none
        | [] => none
      else none
    | [] => none
  | _ => none

/-- The first example pattern: optional opening bracket, 例, digits*,
optional closing bracket, colon, then the lazy capture up to the next
example marker or the end. -/
def exMatch1 (cs : List Char) : Option (MRes (List Char)) :=
  let core : List Char → Option (MRes (List Char)) := fun s =>
    match exAfterMarker s with
    | some r =>
      match lazyGroup ex1Stop r with
      | some (g1, rest) => some ⟨g1, s.take (s.length - rest.length), rest⟩
      | none => none
    | none => none
  match cs with
  | c :: rest =>
    if exOpenBr c then
      match core rest with
      | some m => some ⟨m.val, c :: m.g0, m.rest⟩
      | none => none
    else core cs
  | [] => none

def ex2Stop (s : List Char) : Bool :=
  s.isEmpty || s = ['\n'] || "示例".data.isPrefixOf s

/-- The second example pattern: the literal 示例, a colon, then the lazy
capture up to the next 示例 or the end. -/
def exMatch2 (cs : List Char) : Option (MRes (List Char)) :=
  if "示例".data.isPrefixOf cs then
    match cs.drop 2 with
    | c :: r =>
      if isColonCh c then
        match lazyGroup ex2Stop r with
        | some (g1, rest) => some ⟨g1, cs.take (cs.length - rest.length), rest⟩
        | none => none
      else none
    | [] => none
  else none

/-- _extract_examples: for each pattern in order, every match i becomes
(示例{i+1}, stripped capture[:1000]) unless the stripped capture is empty
(the title number comes from the match index, skipped matches included);
the combined list is capped at 20. -/
def extract_examples (cs : List Char) : List (List Char × List Char) :=
  let collect : (List Char → Option (MRes (List Char))) → List (List Char × List Char) :=
    fun mf =>
      (finditer (fun _ s => mf s) (cs.length + 1) true cs).enum.filterMap
        (fun e =>
          let c := (pyStrip e.2).take 1000
          if c = [] then none
          else some ("示例".data ++ Nat.toDigits 10 (e.1 + 1), c))
  (collect exMatch1 ++ collect exMatch2).take 20

/-! ### _extract_all_definitions

The four patterns carry no flags: the dot crosses no newline and the
dollar does not appear.  The first capture is a greedy 2-to-80-character
run, the second a greedy 5-to-500-character run; patterns one to three
require a following 。 or newline as a lookahead (not consumed), the
fourth wraps the second capture in literal ASCII parentheses (consumed).
Greedy semantics: at each start position the longest first capture whose
continuation matches wins, with backtracking into shorter captures. -/

/-- Match one of the first three definition patterns at a position:
capture1 (2..80, newline-free), the given literal, capture2 (5..500,
newline-free), lookahead 。 or newline. -/
def defnMatchLit (lit : List Char) (cs : List Char) : Option (MRes (List Char × List Char)) :=
  firstSomeNat
    (fun k =>
      match nlFreeTake cs k with
      | some g1 =>
        if lit.isPrefixOf (cs.drop k) then
          let afterLit := cs.drop (k + lit.length)
          firstSomeNat
            (fun m =>
              match nlFreeTake afterLit m with
              | some g2 =>
                match (afterLit.drop m).head? with
                | some ch =>
                  if ch = '。' || ch = '\n' then
                    some ⟨(g1, g2), cs.take (k + lit.length + m),
                          afterLit.drop m⟩
                  else none
                | none => none
              | none => none)
            (descRange 5 500)
        else none
      | none => none)
    (descRange 2 80)

/-- Match the fourth definition pattern at a position: capture1 (2..80,
newline-free), an ASCII open parenthesis, capture2 (5..500, newline-free),
an ASCII close parenthesis (consumed). -/
def defnMatchParen (cs : List Char) : Option (MRes (List Char × List Char)) :=
  firstSomeNat
    (fun k =>
      match nlFreeTake cs k with
      | some g1 =>
        if (cs.drop k).head? = some '(' then
          let inner := cs.drop (k + 1)
          firstSomeNat
            (fun m =>
              match nlFreeTake inner m with
              | some g2 =>
                if (inner.drop m).head? = some ')' then
                  some ⟨(g1, g2), cs.take (k + 1 + m + 1), inner.drop (m + 1)⟩
                else none
              | none => none)
            (descRange 5 500)
        else none
      | none => none)
    (descRange 2 80)

/-- _extract_all_definitions: the matches of the four patterns in order
(是指, 定义为, fullwidth colon, parentheses); each match contributes
(stripped capture1, stripped capture2) when the stripped lengths are still
within 2..80 and 5..500; capped at 100. -/
def extract_all_definitions (cs : List Char) : List (List Char × List Char) :=
  let run : (List Char → Option (MRes (List Char × List Char))) →
      List (List Char × List Char) := fun mf =>
    (finditer (fun _ s => mf s) (cs.length + 1) true cs).filterMap
      (fun g =>
        let term := pyStrip g.1
        let defn := pyStrip g.2
        if (2 ≤ term.length && term.length ≤ 80) &&
            (5 ≤ defn.length && defn.length ≤ 500) then
          some (term, defn)
        else none)
  (run (defnMatchLit "是指".data) ++ run (defnMatchLit "定义为".data) ++
    run (defnMatchLit ['：']) ++ run defnMatchParen).take 100

/-! ### _extract_all_subsections

All four patterns carry re.MULTILINE and re.DOTALL.  The dollar in each
lookahead is therefore line-anchored: the lazy capture stops at the next
subsection marker, the next end of line, or the end of the text —
whichever comes first.  A pattern is used only when it has at least two
matches; entries whose stripped name or content is empty are dropped, and
if that leaves none the cascade moves to the next pattern. -/

/-- The class of whitespace-or-colon separators of the first pattern. -/
def subSep1 (c : Char) : Bool := isPySpace c || c = '：' || c = ':'

/-- Lookahead of pattern one: digits, a period, digits, one separator. -/
def subMark1At (s : List Char) : Bool :=
  !(s.takeWhile isAsciiDigit).isEmpty &&
    (match s.dropWhile isAsciiDigit with
     | '.' :: r2 =>
       !(r2.takeWhile isAsciiDigit).isEmpty &&
         (match r2.dropWhile isAsciiDigit with
          | c :: _ => subSep1 c
          | [] => false)
     | _ => false)

def sub1Stop (s : List Char) : Bool :=
  s.isEmpty || s.head? = some '\n' || subMark1At s

/-- Pattern one: N.N plus separators (capture 1), then the lazy capture 2. -/
def sub1Match (cs : List Char) : Option (MRes (List Char)) :=
  if (cs.takeWhile isAsciiDigit).isEmpty then none
  else
    match cs.dropWhile isAsciiDigit with
    | '.' :: r2 =>
      if (r2.takeWhile isAsciiDigit).isEmpty then none
      else
        let r3 := r2.dropWhile isAsciiDigit
        let seps := r3.takeWhile subSep1
        if seps.isEmpty then none
        else
          match lazyGroup sub1Stop (r3.dropWhile subSep1) with
          | some (g2, rest) => some ⟨g2, cs.take (cs.length - rest.length), rest⟩
          | none => none
    | _ => none

def pOpen (c : Char) : Bool := c = '（' || c = '('
def pClose (c : Char) : Bool := c = '）' || c = ')'

/-- Lookahead of pattern two: a parenthesized number. -/
def subMark2At : List Char → Bool
  | c :: r =>
    pOpen c && !(r.takeWhile isAsciiDigit).isEmpty &&
      (match r.dropWhile isAsciiDigit with
       | c2 :: _ => pClose c2
       | [] => false)
  | [] => false

def sub2Stop (s : List Char) : Bool :=
  s.isEmpty || s.head? = some '\n' || subMark2At s

/-- Pattern two: parenthesized number plus whitespace (capture 1), then the
lazy capture 2. -/
def sub2Match (cs : List Char) : Option (MRes (List Char)) :=
  match cs with
  | c :: r =>
    if pOpen c && !(r.takeWhile isAsciiDigit).isEmpty then
      match r.dropWhile isAsciiDigit with
      | c2 :: r2 =>
        if pClose c2 then
          match lazyGroup sub2Stop (r2.dropWhile isPySpace) with
          | some (g2, rest) => some ⟨g2, cs.take (cs.length - rest.length), rest⟩
          | none => none
        else none
      | [] => none
    else none
  | [] => none

/-- The circled-digit characters ① to ⑩. -/
def circledCh (c : Char) : Bool :=
  Char.ofNat 0x2460 ≤ c && c ≤ Char.ofNat 0x2469

def sub3Stop (s : List Char) : Bool :=
  s.isEmpty || s.head? = some '\n' ||
    (match s.head? with | some c => circledCh c | none => false)

/-- Pattern three: circled digits plus whitespace (capture 1), then the
lazy capture 2. -/
def sub3Match (cs : List Char) : Option (MRes (List Char)) :=
  if (cs.takeWhile circledCh).isEmpty then none
  else
    match lazyGroup sub3Stop ((cs.dropWhile circledCh).dropWhile isPySpace) with
    | some (g2, rest) => some ⟨g2, cs.take (cs.length - rest.length), rest⟩
    | none => none

/-- Lookahead of pattern four: an ASCII letter followed by a period. -/
def subMark4At : List Char → Bool
  | a :: '.' :: _ => isAsciiAlpha a
  | _ => false

def sub4Stop (s : List Char) : Bool :=
  s.isEmpty || s.head? = some '\n' || subMark4At s

/-- Pattern four: a letter and a period (capture 1), unconsumed whitespace,
then the lazy capture 2. -/
def sub4Match (cs : List Char) : Option (MRes (List Char)) :=
  match cs with
  | a :: '.' :: r =>
    if isAsciiAlpha a then
      match lazyGroup sub4Stop (r.dropWhile isPySpace) with
      | some (g2, rest) => some ⟨g2, cs.take (cs.length - rest.length), rest⟩
      | none => none
    else none
  | _ => none

/-- Lift a matcher so the driver also hands back the whole match. -/
def withWhole (m : Bool → List Char → Option (MRes α)) :
    Bool → List Char → Option (MRes (α × List Char)) :=
  fun b s => (m b s).map (fun r => ⟨(r.val, r.g0), r.g0, r.rest⟩)

/-- Per match: name is the first line of capture 2, stripped, then
truncated to 300; content is the stripped whole match truncated to 3000;
entries with an empty name or content are dropped. -/
def subEntriesOf (ms : List (List Char × List Char)) : List (List Char × List Char) :=
  ms.filterMap (fun e =>
    let name := (pyStrip ((splitNL e.1).headD [])).take 300
    let content := (pyStrip e.2).take 3000
    if name ≠ [] && content ≠ [] then some (name, content) else none)

/-- The pattern cascade of _extract_all_subsections: the first pattern
with at least two matches and at least one surviving entry wins. -/
def subCascade : List (Bool → List Char → Option (MRes (List Char))) →
    List Char → List (List Char × List Char)
  | [], _ => []
  | m :: ms, cs =>
    let found := finditer (withWhole m) (cs.length + 1) true cs
    if 2 ≤ found.length then
      let kept := subEntriesOf found
      if kept ≠ [] then kept else subCascade ms cs
    else subCascade ms cs

/-- _extract_all_subsections: (name, content) pairs. -/
def extract_all_subsections (cs : List Char) : List (List Char × List Char) :=
  subCascade
    [fun _ => sub1Match, fun _ => sub2Match, fun _ => sub3Match, fun _ => sub4Match]
    cs

/-! ## Segmenter: _split_comprehensive

All five chapter patterns carry re.MULTILINE, re.DOTALL and re.IGNORECASE.
Because of re.MULTILINE, the dollar in each lookahead alternation matches
at every end of line, so the lazy span of a section stops at the next
chapter marker, the next end of line, or the end of the text — whichever
comes first. -/

/-- One top-level section as built by _split_comprehensive. -/
structure Sec where
  title : List Char
  content : List Char
  level : Nat
  order : Nat
deriving DecidableEq, Inhabited

/-- The numeral class of chapter pattern one. -/
def cnNumeral (c : Char) : Bool :=
  (['一', '二', '三', '四', '五', '六', '七', '八', '九', '十',
    '零', '〇', '百', '千', '万'] : List Char).contains c || isAsciiDigit c

/-- The chapter-unit class 章节课讲部分篇 (one character). -/
def chapUnit (c : Char) : Bool :=
  (['章', '节', '课', '讲', '部', '分', '篇'] : List Char).contains c

/-- Lookahead of chapter pattern one: 第, numerals, one unit character. -/
def marker1At : List Char → Bool
  | '第' :: r =>
    !(r.takeWhile cnNumeral).isEmpty &&
      (match r.dropWhile cnNumeral with
       | u :: _ => chapUnit u
       | [] => false)
  | _ => false

def seg1Stop (s : List Char) : Bool :=
  s.isEmpty || s.head? = some '\n' || marker1At s

/-- Chapter pattern one: 第, numerals, a unit character, whitespace,
colons, whitespace, then the lazy title capture.  The separator classes
are consumed greedily; Python can backtrack them to satisfy the
one-character minimum of the capture on degenerate inputs (a marker
followed only by separators), which do not arise below. -/
def seg1Match (cs : List Char) : Option (MRes (List Char)) :=
  match cs with
  | '第' :: r1 =>
    if (r1.takeWhile cnNumeral).isEmpty then none
    else
      match r1.dropWhile cnNumeral with
      | u :: r2 =>
        if chapUnit u then
          let r5 := ((r2.dropWhile isPySpace).dropWhile isColonCh).dropWhile isPySpace
          match lazyGroup seg1Stop r5 with
          | some (g1, rest) => some ⟨g1, cs.take (cs.length - rest.length), rest⟩
          | none => none
        else none
      | [] => none
  | _ => none

def lowerCh (c : Char) : Char :=
  if 'A' ≤ c && c ≤ 'Z' then Char.ofNat (c.toNat + 32) else c

/-- Case-insensitive literal test (re.IGNORECASE on ASCII letters). -/
def ciLit (lit : List Char) (s : List Char) : Bool :=
  (s.take lit.length).map lowerCh = lit

/-- Lookahead of chapter pattern two: Chapter, whitespace+, digits+. -/
def marker2At (s : List Char) : Bool :=
  ciLit "chapter".data s &&
    (let r := s.drop 7
     !(r.takeWhile isPySpace).isEmpty &&
       !((r.dropWhile isPySpace).takeWhile isAsciiDigit).isEmpty)

def seg2Stop (s : List Char) : Bool :=
  s.isEmpty || s.head? = some '\n' || marker2At s

/-- Chapter pattern two: Chapter (case-insensitive), whitespace+, digits+,
whitespace, colons, whitespace, then the lazy title capture. -/
def seg2Match (cs : List Char) : Option (MRes (List Char)) :=
  if ciLit "chapter".data cs then
    let r1 := cs.drop 7
    if (r1.takeWhile isPySpace).isEmpty then none
    else
      let r2 := r1.dropWhile isPySpace
      if (r2.takeWhile isAsciiDigit).isEmpty then none
      else
        let r5 := (((r2.dropWhile isAsciiDigit).dropWhile isPySpace).dropWhile
          isColonCh).dropWhile isPySpace
        match lazyGroup seg2Stop r5 with
        | some (g1, rest) => some ⟨g1, cs.take (cs.length - rest.length), rest⟩
        | none => none
  else none

def seg3Sep (c : Char) : Bool := c = '.' || c = '、' || c = '．'

/-- For the two line-anchored patterns the caret alternative of the
lookahead can hold only just after a newline, where the line-anchored
dollar has already stopped the lazy capture, so only the dollar decides. -/
def seg34Stop (s : List Char) : Bool := s.isEmpty || s.head? = some '\n'

/-- Chapter pattern three (line-anchored): digits+, one of period or
enumeration comma, whitespace, then the lazy title capture. -/
def seg3Match (atLS : Bool) (cs : List Char) : Option (MRes (List Char)) :=
  if !atLS then none
  else if (cs.takeWhile isAsciiDigit).isEmpty then none
  else
    match cs.dropWhile isAsciiDigit with
    | s :: r2 =>
      if seg3Sep s then
        match lazyGroup seg34Stop (r2.dropWhile isPySpace) with
        | some (g1, rest) => some ⟨g1, cs.take (cs.length - rest.length), rest⟩
        | none => none
      else none
    | [] => none

/-- The numeral class of chapter pattern four. -/
def cnSmall (c : Char) : Bool :=
  (['一', '二', '三', '四', '五', '六', '七', '八', '九', '十',
    '百', '千'] : List Char).contains c

def seg4Sep (c : Char) : Bool := c = '、' || c = '．' || c = '.'

/-- Chapter pattern four (line-anchored): Chinese numerals+, one of
enumeration comma or period, whitespace, then the lazy title capture. -/
def seg4Match (atLS : Bool) (cs : List Char) : Option (MRes (List Char)) :=
  if !atLS then none
  else if (cs.takeWhile cnSmall).isEmpty then none
  else
    match cs.dropWhile cnSmall with
    | s :: r2 =>
      if seg4Sep s then
        match lazyGroup seg34Stop (r2.dropWhile isPySpace) with
        | some (g1, rest) => some ⟨g1, cs.take (cs.length - rest.length), rest⟩
        | none => none
      else none
    | [] => none

/-- The numeral class of chapter pattern five. -/
def cnNum5 (c : Char) : Bool :=
  (['一', '二', '三', '四', '五', '六', '七', '八', '九', '十'] : List Char).contains c ||
    isAsciiDigit c

/-- Lookahead of chapter pattern five: bracketed 第...部分. -/
def marker5At : List Char → Bool
  | b :: '第' :: r =>
    exOpenBr b && !(r.takeWhile cnNum5).isEmpty &&
      "部分".data.isPrefixOf (r.dropWhile cnNum5) &&
      (match (r.dropWhile cnNum5).drop 2 with
       | c :: _ => exCloseBr c
       | [] => false)
  | _ => false

def seg5Stop (s : List Char) : Bool :=
  s.isEmpty || s.head? = some '\n' || marker5At s

/-- Chapter pattern five: a bracketed 第N部分 marker, then the lazy title
capture. -/
def seg5Match (cs : List Char) : Option (MRes (List Char)) :=
  match cs with
  | [] => none
  | b :: rest =>
    if exOpenBr b then
      match rest with
      | '第' :: r =>
        if (r.takeWhile cnNum5).isEmpty then none
        else
          let r2 := r.dropWhile cnNum5
          if "部分".data.isPrefixOf r2 then
            match r2.drop 2 with
            | c :: r3 =>
              if exCloseBr c then
                match lazyGroup seg5Stop r3 with
                | some (g1, rest2) =>
                  some ⟨g1, (b :: rest).take ((b :: rest).length - rest2.length), rest2⟩
                | none => none
              else none
            | [] => none
          else none
      | _ => none
    else none

/-- Build sections from the matches of one chapter pattern: the title is
the first line of the capture, stripped and truncated to 200 (the capture
always participates in these patterns, so the Section-i fallback of the
source is dead); the content is the stripped whole match; order is the
match index. -/
def sectionsOf (ms : List (List Char × List Char)) : List Sec :=
  ms.enum.map (fun e =>
    { title := (pyStrip ((splitNL e.2.1).headD [])).take 200
      content := pyStrip e.2.2
      level := 1
      order := e.1 })

/-- Strategy one of _split_comprehensive: the first chapter pattern with
at least one match wins (each match always yields a section, so the inner
nonemptiness test of the source holds whenever a match exists). -/
def segCascade : List (Bool → List Char → Option (MRes (List Char))) →
    List Char → List Sec
  | [], _ => []
  | m :: ms, cs =>
    let found := finditer (withWhole m) (cs.length + 1) true cs
    if 1 ≤ found.length then sectionsOf found else segCascade ms cs

def seg_strategy1 (cs : List Char) : List Sec :=
  segCascade
    [fun _ => seg1Match, fun _ => seg2Match, seg3Match, seg4Match, fun _ => seg5Match]
    cs

/-- One re.split step for blank-line splitting: the cut at a newline spans
the following whitespace run up to its last newline (the greedy middle
backtracks to end at a newline). -/
def lastNLCut (run : List Char) : Option Nat :=
  (run.reverse.findIdx? (fun c => c = '\n')).map (fun j => run.length - j)

/-- re.split of text on newline-whitespace-newline, keeping empty pieces. -/
def splitBlankAux : Nat → List Char → List Char → List (List Char)
  | 0, acc, rest => [acc.reverse ++ rest]
  | _ + 1, acc, [] => [acc.reverse]
  | fuel + 1, acc, c :: rest =>
    if c = '\n' then
      match lastNLCut (rest.takeWhile isPySpace) with
      | some k => acc.reverse :: splitBlankAux fuel [] (rest.drop k)
      | none => splitBlankAux fuel (c :: acc) rest
    else splitBlankAux fuel (c :: acc) rest

def splitBlankLines (cs : List Char) : List (List Char) :=
  splitBlankAux (cs.length + 1) [] cs

/-- Strategy two: stripped blank-line-delimited paragraphs longer than 50
characters, title = first 100 characters, content = the paragraph. -/
def seg_strategy2 (cs : List Char) : List Sec :=
  (((splitBlankLines cs).map pyStrip).filter (fun p => 50 < p.length)).enum.map
    (fun e => { title := e.2.take 100, content := e.2, level := 1, order := e.1 })

/-- Strategy three: stripped lines longer than 30 characters, capped at
100, title = first 100 characters, content = the line. -/
def seg_strategy3 (cs : List Char) : List Sec :=
  ((((splitNL cs).map pyStrip).filter (fun l => 30 < l.length)).take 100).enum.map
    (fun e => { title := e.2.take 100, content := e.2, level := 1, order := e.1 })

/-- _split_comprehensive: the three-strategy cascade; a later strategy
runs only when every earlier one produced zero sections. -/
def split_comprehensive (cs : List Char) : List Sec :=
  let s1 := seg_strategy1 cs
  if s1 ≠ [] then s1
  else
    let s2 := seg_strategy2 cs
    if s2 ≠ [] then s2 else seg_strategy3 cs

/-! ## Point Extractor: _extract_all_points_from_section -/

/-- _extract_all_points_from_section: one chapter draft, then all
subsection drafts, all definition drafts, all list-point drafts and all
example drafts, in that concatenation order.  The chapter takes order
section_num; subsections, list points and examples are numbered from 0
within their own group; definitions continue the subsection numbering. -/
def extract_all_points_from_section (s : Sec) (sectionNum : Nat) : List Draft :=
  let subs := extract_all_subsections s.content
  let defs := extract_all_definitions s.content
  let items := extract_list_items s.content
  let exs := extract_examples s.content
  { name := s.title, content := s.content.take 2000, fullContent := some s.content
    dtype := "chapter".data, level := 1, order := sectionNum
    parentName := none, importance := 5 } ::
  (subs.enum.map (fun e =>
    { name := e.2.1, content := e.2.2, dtype := "section".data, level := 2
      order := e.1, parentName := some s.title, importance := 4 }) ++
   defs.enum.map (fun e =>
    { name := e.2.1, content := e.2.2, dtype := "definition".data, level := 2
      order := subs.length + e.1, parentName := some s.title, importance := 4 }) ++
   items.enum.map (fun e =>
    { name := e.2.1, content := e.2.2, dtype := "point".data, level := 3
      order := e.1, parentName := some s.title, importance := 3 }) ++
   exs.enum.map (fun e =>
    { name := e.2.1, content := e.2.2, dtype := "example".data, level := 3
      order := e.1, parentName := some s.title, importance := 3 }))

/-! ## Task Orchestrator: process_document_async

The pipeline stages are effectful calls that may raise; a run is modelled
against an environment fixing each stage's outcome.  The document row
mutations are recorded as an ordered write log.  A key detail of the
source is reproduced exactly: the local variable doc is first assigned
only after _extract_text returns, so when extraction raises, the except
handler's `if doc` reads an unbound local and itself raises
UnboundLocalError, which escapes process_document_async (and the commit
that would persist the failed task state is never reached). -/

/-- The outcome of one effectful stage call: a value or a raised
exception carrying str(e). -/
inductive StRes (α : Type) where
  | ok (a : α)
  | exn (msg : List Char)
deriving DecidableEq

/-- The stage outcomes of one run. pointsExn models an exception raised
while processing section k of step 3 (before that iteration's progress
writes); it fires only when k is less than the section count. -/
structure Env where
  extractRes : StRes (List Char)
  docRow : Bool
  segRes : StRes (List Sec)
  pointsExn : Option (Nat × List Char)
  kwExn : Option (List Char)
  saveRes : StRes Nat
  graphRes : StRes Unit

/-- The DocumentProcessingTask record (timestamps abstracted to the flag
that completed_at was set). -/
structure TaskSt where
  status : List Char
  progress : Nat
  current_step : Nat
  error_message : Option (List Char)
  completed_at : Bool
  result_data : Option (Nat × Nat × Nat)
deriving DecidableEq, Inhabited

/-- One assignment to a CourseDocument field. -/
inductive DocWrite where
  | extractedText (t : List Char)
  | progress (n : Nat)
  | processedStatus (s : List Char)
  | errorMessage (m : List Char)
deriving DecidableEq

/-- What process_document_async hands back to its caller: the success
dict, the failure dict, or an exception that escaped it. -/
inductive Outcome where
  | success (totalPoints : Nat)
  | failure (err : List Char)
  | uncaught (exn : List Char)
deriving DecidableEq

structure RunResult where
  outcome : Outcome
  task : TaskSt
  docWrites : List DocWrite
deriving DecidableEq

/-- The except-branch of process_document_async.  The task fields are set
in memory first; then `if doc` either raises UnboundLocalError (doc never
assigned: extraction itself raised), or guards the two document writes.
In the unbound case the commit below the handler is never executed. -/
def handleExn (t : TaskSt) (w : List DocWrite) (docBound : Option Bool)
    (m : List Char) : RunResult :=
  let tf := { t with
    status := "failed".data
    error_message := some m
    completed_at := true }
  match docBound with
  | none =>
    { outcome := .uncaught "UnboundLocalError".data, task := tf, docWrites := w }
  | some b =>
    { outcome := .failure m, task := tf
      docWrites := w ++
        if b then [DocWrite.processedStatus "failed".data, DocWrite.errorMessage m]
        else [] }

/-- The per-section progress value of step 3: 30 plus
int((idx+1)/len(sections)*40), the float evaluated exactly. -/
def sectionProg (n i : Nat) : Nat := 30 + (i + 1) * 40 / n

/-- Steps 4 to 6 of the run (keywords, save, graph) and the completion
block. -/
def afterPoints (env : Env) (t : TaskSt) (w : List DocWrite) (n textLen : Nat) :
    RunResult :=
  match env.kwExn with
  | some m => handleExn t w (some env.docRow) m
  | none =>
    let t5 := { t with progress := 80, current_step := 4 }
    match env.saveRes with
    | .exn m => handleExn t5 w (some env.docRow) m
    | .ok np =>
      let t6 := { t5 with progress := 90, current_step := 5 }
      match env.graphRes with
      | .exn m => handleExn t6 w (some env.docRow) m
      | .ok _ =>
        let t7 := { t6 with
          status := "completed".data
          progress := 100
          current_step := 6
          completed_at := true
          result_data := some (np, n, textLen) }
        { outcome := .success np, task := t7
          docWrites := w ++
            if env.docRow then
              [DocWrite.processedStatus "completed".data, DocWrite.progress 100]
            else [] }

/-- process_document_async against an environment of stage outcomes. -/
def process_document_async (env : Env) : RunResult :=
  let t1 : TaskSt := { status := "processing".data
                       progress := 5
                       current_step := 1
                       error_message := none
                       completed_at := false
                       result_data := none }
  match env.extractRes with
  | .exn m => handleExn t1 [] none m
  | .ok text =>
    let w1 := if env.docRow then
        [DocWrite.extractedText text, DocWrite.progress 20] else []
    let t2 := { t1 with progress := 20 }
    match env.segRes with
    | .exn m => handleExn t2 w1 (some env.docRow) m
    | .ok sections =>
      let n := sections.length
      let t3 := { t2 with progress := 30, current_step := 2 }
      let kBound := match env.pointsExn with
                    | some (k, _) => min k n
                    | none => n
      let wLoop := w1 ++
        (if env.docRow then
          (List.range kBound).map (fun i => DocWrite.progress (sectionProg n i))
        else [])
      let t4 := if kBound = 0 then t3
                else { t3 with progress := sectionProg n (kBound - 1), current_step := 3 }
      match env.pointsExn with
      | some (k, m) =>
        if k < n then handleExn t4 wLoop (some env.docRow) m
        else afterPoints env t4 wLoop n text.length
      | none => afterPoints env t4 wLoop n text.length

/-! ## Composition and statement-side definitions -/

/-- Steps 2 and 3 of the pipeline composed: all drafts of a text, the
sections numbered from 1 (the source passes idx + 1 as section_num). -/
def all_points_of (cs : List Char) : List Draft :=
  ((split_comprehensive cs).enum.map
    (fun e => extract_all_points_from_section e.2 (e.1 + 1))).flatten

/-- Keyword candidates in strict text order: one left-to-right scan
collecting each maximal run that is a CJK run of length at least 2 or a
Latin run of length at least 3.  This follows the spec's words (ties
broken by first occurrence in the text) and is compared against the
source's CJK-runs-then-Latin-runs order. -/
def runFlush (acc : List Char) : List (List Char) :=
  let r := acc.reverse
  if r = [] then []
  else if (r.all isCJK && 2 ≤ r.length) || (r.all isAsciiAlpha && 3 ≤ r.length) then [r]
  else []

def textOrderRunsAux : List Char → List Char → List (List Char)
  | [], acc => runFlush acc
  | c :: cs, acc =>
    if isCJK c || isAsciiAlpha c then
      match acc.head? with
      | some a =>
        if (isCJK a && isCJK c) || (isAsciiAlpha a && isAsciiAlpha c) then
          textOrderRunsAux cs (c :: acc)
        else runFlush acc ++ textOrderRunsAux cs [c]
      | none => textOrderRunsAux cs [c]
    else runFlush acc ++ textOrderRunsAux cs []

/-- The keyword list the C5 claim describes: same candidates, same
frequency count, same stable descending sort, but candidates ordered by
first occurrence in the text rather than CJK runs before Latin runs. -/
def keywords_spec_textorder (cs : List Char) : List (List Char) :=
  ((sortByCountDesc
    (((textOrderRunsAux cs []).filter
      (fun w => 2 ≤ w.length && w.length ≤ 20)).foldl bumpWord [])).take 15).map
    Prod.fst

/-- All ordered pairs (earlier element, later element) of a list: the
index pairs i < j visited by the doubly-nested loop of
_build_complete_graph. -/
def orderedPairs : List KPoint → List (KPoint × KPoint)
  | [] => []
  | p :: ps => ps.map (fun q => (p, q)) ++ orderedPairs ps

instance : Inhabited KPoint := ⟨⟨0, []⟩⟩

/-- The name_to_id bindings produced by writing a draft list with ids
from nid on: newest binding first, as consed by saveList. -/
def bindingsOf (nid : Nat) : List Draft → List (List Char × Nat)
  | [] => []
  | d :: l => bindingsOf (nid + 1) l ++ [(d.name, nid)]

/-! ## Concrete inputs referenced by the theorems -/

/-- The end-to-end text of the C2 claim. -/
def textC2 : List Char :=
  "第一章 导论\n计算机科学是指对计算和信息处理的系统性研究。\n• 算法\n• 数据结构\n示例1：排序算法的时间复杂度分析。".data

/-- A two-chapter text for the segmenter span analysis. -/
def textC6 : List Char := "第一章 甲\n内容一\n第二章 乙\n内容二".data

/-- The single section the segmenter produces from textC2. -/
def secIntro : Sec :=
  { title := "导论".data, content := "第一章 导论".data, level := 1, order := 0 }

/-- A section containing one bullet point and one example. -/
def secBulletExample : Sec :=
  { title := "要点".data, content := "• 要点甲\n示例：关于排序的说明".data,
    level := 1, order := 0 }

/-- A run whose text extraction raises (e.g. an unsupported file type). -/
def envExtractFail : Env :=
  { extractRes := .exn "不支持的文件类型: xyz".data, docRow := true,
    segRes := .ok [], pointsExn := none, kwExn := none,
    saveRes := .ok 0, graphRes := .ok () }

/-- A run that fails in the graph-building stage after persistence. -/
def envGraphFail : Env :=
  { extractRes := .ok "正文".data, docRow := true,
    segRes := .ok [{ title := "甲".data, content := "乙".data, level := 1, order := 0 }],
    pointsExn := none, kwExn := none, saveRes := .ok 2,
    graphRes := .exn "boom".data }

/-- A fully successful run over one section. -/
def envOneSection : Env :=
  { extractRes := .ok "正文".data, docRow := true,
    segRes := .ok [{ title := "甲".data, content := "乙".data, level := 1, order := 0 }],
    pointsExn := none, kwExn := none, saveRes := .ok 1, graphRes := .ok () }

/-- The two keyword sets of the C4 end-to-end example. -/
def psC4 : List KPoint :=
  [⟨1, ["排序".data, "算法".data, "复杂度".data]⟩,
   ⟨2, ["算法".data, "数据".data, "结构".data]⟩]

/-- Drafts with a duplicated name: two level-1 units named 甲 and a
level-2 unit whose parent name is 甲. -/
def draftsC9 : List Draft :=
  [{ name := "甲".data, level := 1 },
   { name := "甲".data, level := 1 },
   { name := "乙".data, level := 2, parentName := some "甲".data }]

/-! ## Theorems -/

/-- C1 The orchestrator is intended to catch every stage exception once,
record str(e) verbatim, mark task and document failed and return a
failure dict.  The code does this for every stage after text extraction
(second part, shown on a graph-stage failure: message recorded verbatim,
task failed and completed_at set, document marked failed, the persisted
units untouched since no compensating delete exists in the model), but
when text extraction itself raises, the except handler reads the local
doc before its first assignment, so an UnboundLocalError escapes
process_document_async instead of a failure dict being returned (first
part): the code contradicts the claim's intent at the extraction stage. -/
theorem c1_exception_boundary :
    (process_document_async envExtractFail).outcome =
      .uncaught "UnboundLocalError".data ∧
    (process_document_async envGraphFail).outcome = .failure "boom".data ∧
    (process_document_async envGraphFail).task.status = "failed".data ∧
    (process_document_async envGraphFail).task.error_message = some "boom".data ∧
    (process_document_async envGraphFail).task.completed_at = true ∧
    (process_document_async envGraphFail).docWrites =
      [.extractedText "正文".data, .progress 20, .progress 70,
       .processedStatus "failed".data, .errorMessage "boom".data] := by decide

/-- C2 The claim predicts 1 section and 5 drafts for the end-to-end text.
The code does produce 1 section, but its content is only the heading line
第一章 导论 (the MULTILINE dollar stops the chapter span at the line
end), so point extraction yields exactly 1 draft, not 5. -/
theorem c2_counterexample :
    (split_comprehensive textC2).length = 1 ∧
    (all_points_of textC2).length = 1 ∧
    ¬ (all_points_of textC2).length = 5 := by decide

/-- C2 amended: segmenting the end-to-end text yields exactly one section
whose content is the heading line only, and point extraction yields
exactly one draft, the chapter unit named 导论. -/
theorem c2_amended :
    split_comprehensive textC2 = [secIntro] ∧
    all_points_of textC2 =
      [{ name := "导论".data, content := "第一章 导论".data,
         fullContent := some "第一章 导论".data, dtype := "chapter".data,
         level := 1, order := 1, parentName := none, importance := 5,
         keywords := [] }] := by decide

/-- C3 The claim says the document is written at exactly two checkpoints
(progress 20 after extraction, 100 at the end) with no other writes in
between; but on a one-section run the write log contains a progress-70
write between the checkpoints (the step-3 loop mirrors per-section
progress onto the document). -/
theorem c3_counterexample :
    (process_document_async envOneSection).docWrites =
      [.extractedText "正文".data, .progress 20, .progress 70,
       .processedStatus "completed".data, .progress 100] ∧
    DocWrite.progress 70 ∈ (process_document_async envOneSection).docWrites ∧
    (70 : Nat) ≠ 20 ∧ (70 : Nat) ≠ 100 := by decide

/-- C3 amended: on a successful run the document write log is exactly
extracted_text and progress 20 after extraction, then one progress write
per section (value 30 plus the scaled section fraction), then
processed_status completed and progress 100; when the graph stage fails
the terminal writes are processed_status failed and the error message,
and progress is never set to 100. -/
theorem c3_amended (env : Env) (text : List Char) (secs : List Sec) (np : Nat)
    (hx : env.extractRes = .ok text) (hd : env.docRow = true)
    (hs : env.segRes = .ok secs) (hp : env.pointsExn = none)
    (hk : env.kwExn = none) (hv : env.saveRes = .ok np) :
    (env.graphRes = .ok () →
      (process_document_async env).docWrites =
        [DocWrite.extractedText text, DocWrite.progress 20] ++
        (List.range secs.length).map
          (fun i => DocWrite.progress (sectionProg secs.length i)) ++
        [DocWrite.processedStatus "completed".data, DocWrite.progress 100]) ∧
    (∀ gm, env.graphRes = .exn gm →
      (process_document_async env).docWrites =
        [DocWrite.extractedText text, DocWrite.progress 20] ++
        (List.range secs.length).map
          (fun i => DocWrite.progress (sectionProg secs.length i)) ++
        [DocWrite.processedStatus "failed".data, DocWrite.errorMessage gm]) := by
  constructor
  · intro hg
    simp [process_document_async, afterPoints, handleExn, hx, hd, hs, hp, hk, hv, hg]
  · intro gm hg
    simp [process_document_async, afterPoints, handleExn, hx, hd, hs, hp, hk, hv, hg]

/-- C3 witness: the amended write-log shape at the concrete one-section
run. -/
theorem c3_amended_witness :
    (process_document_async envOneSection).docWrites =
      [DocWrite.extractedText "正文".data, DocWrite.progress 20] ++
      (List.range 1).map (fun i => DocWrite.progress (sectionProg 1 i)) ++
      [DocWrite.processedStatus "completed".data, DocWrite.progress 100] :=
  (c3_amended envOneSection "正文".data
    [{ title := "甲".data, content := "乙".data, level := 1, order := 0 }] 1
    rfl rfl rfl rfl rfl rfl).1 rfl

/-- C6 The claim says a strategy-one section spans from its marker to the
next marker or the end of the text; on a two-chapter text the code
truncates each span at the end of the marker's line instead (the
MULTILINE dollar in the lookahead), refuting the claimed spans. -/
theorem c6_counterexample :
    (split_comprehensive textC6).map Sec.content =
      ["第一章 甲".data, "第二章 乙".data] ∧
    ¬ ((split_comprehensive textC6).map Sec.content =
        ["第一章 甲\n内容一".data, "第二章 乙\n内容二".data]) := by decide

/-- C8 A section none of whose content matches the subsection, definition,
list or example extractors yields exactly one draft: the chapter unit with
the section title, the first 2000 characters as content, the full text
kept separately, level 1 and importance 5. -/
theorem c8_markerless_section (s : Sec) (num : Nat)
    (h1 : extract_all_subsections s.content = [])
    (h2 : extract_all_definitions s.content = [])
    (h3 : extract_list_items s.content = [])
    (h4 : extract_examples s.content = []) :
    extract_all_points_from_section s num =
      [{ name := s.title, content := s.content.take 2000,
         fullContent := some s.content, dtype := "chapter".data, level := 1,
         order := num, parentName := none, importance := 5, keywords := [] }] := by
  simp [extract_all_points_from_section, h1, h2, h3, h4]

/-- C8 witness: the marker-free section 第一章 导论 yields exactly its
chapter draft. -/
theorem c8_witness :
    extract_all_points_from_section secIntro 1 =
      [{ name := "导论".data, content := "第一章 导论".data,
         fullContent := some "第一章 导论".data, dtype := "chapter".data,
         level := 1, order := 1, parentName := none, importance := 5,
         keywords := [] }] :=
  (c8_markerless_section secIntro 1 (by decide) (by decide) (by decide)
    (by decide)).trans (by decide)

/-- C10 Draft order values are not unique: in the bullet-plus-example
section, the first list point and the first example are distinct drafts
that both carry order 0, and their two distinct search-index entries
carry the same chunk_index (with the same document, hence the same
(document_id, chunk_index) key). -/
theorem c10_duplicate_order_values :
    (extract_all_points_from_section secBulletExample 1).getD 1 default ≠
      (extract_all_points_from_section secBulletExample 1).getD 2 default ∧
    ((extract_all_points_from_section secBulletExample 1).getD 1 default).order = 0 ∧
    ((extract_all_points_from_section secBulletExample 1).getD 2 default).order = 0 ∧
    (save_all_points (extract_all_points_from_section secBulletExample 1)).2.getD 1 default ≠
      (save_all_points (extract_all_points_from_section secBulletExample 1)).2.getD 2 default ∧
    ((save_all_points (extract_all_points_from_section secBulletExample 1)).2.getD 1
        default).chunk_index =
      ((save_all_points (extract_all_points_from_section secBulletExample 1)).2.getD 2
        default).chunk_index := by decide

/-! ### Persistence-writer lemmas -/

theorem saveList_length (nid : Nat) (m : List (List Char × Nat)) (l : List Draft) :
    (saveList nid m l).length = l.length := by
  induction l generalizing nid m with
  | nil => rfl
  | cons d rest ih => simp [saveList, ih]

/-- Generic getD-through-take. -/
theorem getD_take {α : Type} [Inhabited α] (l : List α) (k i : Nat) (h : i < k) :
    (l.take k).getD i default = l.getD i default := by
  rw [List.getD_eq_getElem?_getD, List.getD_eq_getElem?_getD, List.getElem?_take]
  simp [h]

/-- The k-th write of saveList: the unit and index entry of the k-th
draft, with id nid + k and the parent resolved in the bindings of the
first k drafts (newest first) over the initial map. -/
theorem saveList_getD (nid : Nat) (m : List (List Char × Nat)) (l : List Draft)
    (k : Nat) (hk : k < l.length) :
    (saveList nid m l).getD k default =
      (mkUnit (l.getD k default) (nid + k)
        (lookupName (bindingsOf nid (l.take k) ++ m) ((l.getD k default).parentName)),
       mkKB (l.getD k default)) := by
  induction l generalizing nid m k with
  | nil => simp at hk
  | cons d rest ih =>
    cases k with
    | zero => simp [saveList, bindingsOf]
    | succ j =>
      have hj : j < rest.length := Nat.lt_of_succ_lt_succ hk
      have hrec := ih (nid + 1) ((d.name, nid) :: m) j hj
      simp only [saveList, List.getD_cons_succ, List.take_succ_cons, bindingsOf]
      rw [hrec]
      have hn : nid + 1 + j = nid + (j + 1) := by omega
      rw [hn, List.append_assoc]
      rfl

/-- The persisted unit at write position k of _save_all_points. -/
theorem saved_unit_getD (ds : List Draft) (k : Nat)
    (hk : k < (processOrder ds).length) :
    (save_all_points ds).1.getD k default =
      mkUnit ((processOrder ds).getD k default) k
        (lookupName (bindingsOf 0 ((processOrder ds).take k))
          (((processOrder ds).getD k default).parentName)) := by
  have h1 : ((saveList 0 [] (processOrder ds)).map Prod.fst).getD k default =
      ((saveList 0 [] (processOrder ds)).getD k
        (default : SavedUnit × KBEntry)).1 := by
    rw [List.getD_eq_getElem?_getD, List.getD_eq_getElem?_getD, List.getElem?_map]
    cases (saveList 0 [] (processOrder ds))[k]? with
    | none => rfl
    | some p => rfl
  show ((saveList 0 [] (processOrder ds)).map Prod.fst).getD k default = _
  rw [h1, saveList_getD 0 [] _ k hk]
  simp

/-- A name carried by none of the drafts looks up to nothing. -/
theorem find_bindings_none (nid : Nat) (l : List Draft) (n : List Char)
    (h : ∀ j, j < l.length → (l.getD j default).name ≠ n) :
    (bindingsOf nid l).find? (fun e => e.1 = n) = none := by
  induction l generalizing nid with
  | nil => rfl
  | cons d rest ih =>
    rw [bindingsOf, List.find?_append,
      ih (nid + 1) (fun j hj => by simpa using h (j + 1) (Nat.succ_lt_succ hj))]
    have h0 : d.name ≠ n := by simpa using h 0 (Nat.succ_pos _)
    simp [List.find?, h0]

/-- The newest-first binding list resolves a name to the latest draft
that carries it. -/
theorem find_bindings_last (nid : Nat) (l : List Draft) (n : List Char)
    (j : Nat) (hj : j < l.length) (hname : (l.getD j default).name = n)
    (hlast : ∀ i, j < i → i < l.length → (l.getD i default).name ≠ n) :
    (bindingsOf nid l).find? (fun e => e.1 = n) = some (n, nid + j) := by
  induction l generalizing nid j with
  | nil => simp at hj
  | cons d rest ih =>
    rw [bindingsOf, List.find?_append]
    cases j with
    | zero =>
      have hr : (bindingsOf (nid + 1) rest).find? (fun e => e.1 = n) = none :=
        find_bindings_none (nid + 1) rest n (fun i hi => by
          simpa using hlast (i + 1) (Nat.succ_pos _) (Nat.succ_lt_succ hi))
      rw [hr]
      have h0 : d.name = n := by simpa using hname
      simp [List.find?, h0]
    | succ j' =>
      have hj' : j' < rest.length := Nat.lt_of_succ_lt_succ hj
      have hrec := ih (nid + 1) j' hj' (by simpa using hname)
        (fun i hi1 hi2 => by
          simpa using hlast (i + 1) (Nat.succ_lt_succ hi1) (Nat.succ_lt_succ hi2))
      rw [hrec]
      have hn : nid + 1 + j' = nid + (j' + 1) := by omega
      simp [hn]

/-- Inversion: a successful binding lookup names an earlier draft. -/
theorem find_bindings_some (nid : Nat) (l : List Draft) (n : List Char)
    (x : List Char × Nat)
    (h : (bindingsOf nid l).find? (fun e => e.1 = n) = some x) :
    ∃ j, j < l.length ∧ (l.getD j default).name = n ∧ x = (n, nid + j) := by
  induction l generalizing nid x with
  | nil => simp [bindingsOf] at h
  | cons d rest ih =>
    rw [bindingsOf, List.find?_append] at h
    cases hr : (bindingsOf (nid + 1) rest).find? (fun e => e.1 = n) with
    | some y =>
      rw [hr] at h
      have hxy : y = x := by simpa using h
      obtain ⟨j, hj, hn, hx⟩ := ih (nid + 1) y hr
      refine ⟨j + 1, Nat.succ_lt_succ hj, by simpa using hn, ?_⟩
      rw [← hxy, hx]
      have harith : nid + 1 + j = nid + (j + 1) := by omega
      rw [harith]
    | none =>
      rw [hr] at h
      have h2 : (List.find? (fun e => e.1 = n) [(d.name, nid)]) = some x := by
        simpa using h
      by_cases hd : d.name = n
      · have hx : (d.name, nid) = x := by
          simpa [List.find?, hd] using h2
        refine ⟨0, Nat.succ_pos _, by simpa using hd, ?_⟩
        rw [← hx]
        simp [hd]
      · simp [List.find?, hd] at h2

/-- Generic: an in-range getD is a member. -/
theorem getD_mem_of_lt {α : Type} [Inhabited α] (l : List α) (k : Nat)
    (h : k < l.length) : l.getD k default ∈ l := by
  rw [List.getD_eq_getElem?_getD]
  cases hx : l[k]? with
  | none =>
    rw [List.getElem?_eq_none_iff] at hx
    omega
  | some a =>
    simp only [Option.getD_some]
    exact List.getElem?_mem hx

/-- C9 Within a single run the name_to_id entry for a name is overwritten
at each write of a draft with that name: a draft written at position k
with parent name n, where the latest earlier draft named n was written at
position j, is attached to the unit written at j — the most recently
persisted unit with that name — whose id is its write position. -/
theorem c9_parent_resolves_to_latest (ds : List Draft) (k j : Nat) (n : List Char)
    (hk : k < (processOrder ds).length)
    (hp : ((processOrder ds).getD k default).parentName = some n)
    (hj : j < k)
    (hjname : ((processOrder ds).getD j default).name = n)
    (hlast : ∀ i, j < i → i < k → ((processOrder ds).getD i default).name ≠ n) :
    ((save_all_points ds).1.getD k default).parent_id =
      some (((save_all_points ds).1.getD j default).id) ∧
    ((save_all_points ds).1.getD j default).id = j := by
  have hjk : j < (processOrder ds).length := lt_trans hj hk
  have hid : ((save_all_points ds).1.getD j default).id = j := by
    rw [saved_unit_getD ds j hjk]
    rfl
  refine ⟨?_, hid⟩
  rw [saved_unit_getD ds k hk, hid]
  show lookupName (bindingsOf 0 ((processOrder ds).take k))
      (((processOrder ds).getD k default).parentName) = some j
  rw [hp]
  have hlen : j < ((processOrder ds).take k).length := by
    rw [List.length_take]
    exact lt_min hj hjk
  have hfind := find_bindings_last 0 ((processOrder ds).take k) n j hlen
    (by rw [getD_take _ _ _ hj]; exact hjname)
    (fun i hi1 hi2 => by
      rw [List.length_take] at hi2
      have hik : i < k := lt_of_lt_of_le hi2 (min_le_left _ _)
      rw [getD_take _ _ _ hik]
      exact hlast i hi1 hik)
  show Option.map Prod.snd
      ((bindingsOf 0 ((processOrder ds).take k)).find? (fun e => e.1 = n)) = some j
  rw [hfind]
  simp

/-- C9 witness: with two level-1 drafts named 甲 followed by a level-2
draft whose parent name is 甲, the child is attached to the second 甲
unit, whose id differs from the first one's. -/
theorem c9_witness :
    ((save_all_points draftsC9).1.getD 2 default).parent_id =
      some (((save_all_points draftsC9).1.getD 1 default).id) ∧
    ((save_all_points draftsC9).1.getD 1 default).id ≠
      ((save_all_points draftsC9).1.getD 0 default).id :=
  ⟨(c9_parent_resolves_to_latest draftsC9 2 1 "甲".data (by decide) (by decide)
      (by decide) (by decide) (fun i hi1 hi2 => absurd hi2 (by omega))).1,
    by decide⟩

/-- Every row written by saveList is a mkUnit/mkKB pair. -/
theorem saveList_mem (nid : Nat) (m : List (List Char × Nat)) (l : List Draft)
    (p : SavedUnit × KBEntry) (hp : p ∈ saveList nid m l) :
    ∃ d i pid, p = (mkUnit d i pid, mkKB d) := by
  induction l generalizing nid m with
  | nil => simp [saveList] at hp
  | cons d rest ih =>
    rw [saveList] at hp
    rcases List.mem_cons.mp hp with h | h
    · exact ⟨d, nid, lookupName m d.parentName, h⟩
    · exact ih (nid + 1) ((d.name, nid) :: m) h

/-- The write-time bounds of the KnowledgePoint constructor call. -/
theorem mkUnit_bounds (d : Draft) (i : Nat) (pid : Option Nat) :
    (mkUnit d i pid).point_name.length ≤ 500 ∧
    (mkUnit d i pid).point_content.length ≤ 10000 ∧
    (∀ fc, (mkUnit d i pid).full_content = some fc → fc.length ≤ 50000) ∧
    (mkUnit d i pid).keywords.length ≤ 15 := by
  refine ⟨List.length_take_le _ _, List.length_take_le _ _, ?_,
    List.length_take_le _ _⟩
  intro fc hfc
  simp only [mkUnit] at hfc
  cases hd : d.fullContent with
  | none => rw [hd] at hfc; simp [truthyFull] at hfc
  | some s =>
    rw [hd] at hfc
    by_cases hs : s = []
    · simp [truthyFull, hs] at hfc
    · simp only [truthyFull, hs, if_false, Option.some.injEq] at hfc
      rw [← hfc]
      exact List.length_take_le _ _

theorem saveList_map_level (nid : Nat) (m : List (List Char × Nat))
    (l : List Draft) :
    (saveList nid m l).map (fun p => p.1.level) = l.map Draft.level := by
  induction l generalizing nid m with
  | nil => rfl
  | cons d rest ih => simp [saveList, ih, mkUnit]

/-- A list of drafts of one common level maps to a sorted level list. -/
theorem sorted_const_levels (a : Nat) (l : List Draft)
    (h : ∀ d ∈ l, d.level = a) : (l.map Draft.level).Sorted (· ≤ ·) := by
  induction l with
  | nil => simp
  | cons d rest ih =>
    rw [List.map_cons, List.sorted_cons]
    refine ⟨?_, ih (fun x hx => h x (List.mem_cons_of_mem _ hx))⟩
    intro b hb
    obtain ⟨x, hx, hbx⟩ := List.mem_map.mp hb
    have h1 := h x (List.mem_cons_of_mem _ hx)
    have h2 := h d (List.mem_cons_self _ _)
    rw [← hbx, h1, h2]

/-- Whatever processOrder emits was in the draft list. -/
theorem mem_processOrder (ds : List Draft) (d : Draft)
    (hd : d ∈ processOrder ds) : d ∈ ds := by
  unfold processOrder at hd
  rw [List.mem_flatten] at hd
  obtain ⟨blk, hblk, hdblk⟩ := hd
  obtain ⟨lv, _, hbe⟩ := List.mem_map.mp hblk
  rw [← hbe] at hdblk
  exact List.mem_of_mem_filter hdblk

/-- The five level passes write levels in nondecreasing order. -/
theorem processOrder_sorted (ds : List Draft) :
    ((processOrder ds).map Draft.level).Sorted (· ≤ ·) := by
  have key : ∀ ls : List Nat, ls.Sorted (· ≤ ·) →
      ((((ls.map (fun l => ds.filter (fun d => d.level = l))).flatten).map
        Draft.level).Sorted (· ≤ ·)) := by
    intro ls hls
    induction ls with
    | nil => simp
    | cons a t ih =>
      rw [List.sorted_cons] at hls
      simp only [List.map_cons, List.flatten_cons, List.map_append]
      refine (List.pairwise_append).mpr ⟨?_, ih hls.2, ?_⟩
      · exact sorted_const_levels a _ (fun d hd => by
          simpa using (List.mem_filter.mp hd).2)
      · intro x hx y hy
        obtain ⟨dx, hdx, hxe⟩ := List.mem_map.mp hx
        have hxa : x = a := by
          rw [← hxe]
          simpa using (List.mem_filter.mp hdx).2
        obtain ⟨dy, hdy, hye⟩ := List.mem_map.mp hy
        rw [List.mem_flatten] at hdy
        obtain ⟨blk, hblk, hdyblk⟩ := hdy
        obtain ⟨lv, hlv, hbe⟩ := List.mem_map.mp hblk
        rw [← hbe] at hdyblk
        have hylv : y = lv := by
          rw [← hye]
          simpa using (List.mem_filter.mp hdyblk).2
        rw [hxa, hylv]
        exact hls.1 lv hlv
  exact key [1, 2, 3, 4, 5] (by decide)

theorem saved_map_level (ds : List Draft) :
    (save_all_points ds).1.map SavedUnit.level =
      (processOrder ds).map Draft.level := by
  show ((saveList 0 [] (processOrder ds)).map Prod.fst).map SavedUnit.level = _
  rw [List.map_map]
  exact saveList_map_level 0 [] (processOrder ds)

/-- C7 Every persisted unit satisfies the write-time bounds (name at most
500, content at most 10000, stored full content at most 50000, at most 15
keywords); units are written in five passes by nondecreasing level;
level-1 drafts (which carry no parent name in this pipeline, the
hypothesis) are persisted as roots; a draft whose parent name is
unresolved among the already-written drafts is persisted as a root; and a
resolved parent id is always the id of an already-written unit whose
draft carried the parent's name. -/
theorem c7_save_bounds_passes_roots (ds : List Draft)
    (h1 : ∀ d ∈ ds, d.level = 1 → d.parentName = none) :
    (∀ u ∈ (save_all_points ds).1,
      u.point_name.length ≤ 500 ∧ u.point_content.length ≤ 10000 ∧
      (∀ fc, u.full_content = some fc → fc.length ≤ 50000) ∧
      u.keywords.length ≤ 15) ∧
    ((save_all_points ds).1.map SavedUnit.level).Sorted (· ≤ ·) ∧
    (∀ k, k < (processOrder ds).length →
      (((processOrder ds).getD k default).level = 1 →
        ((save_all_points ds).1.getD k default).parent_id = none) ∧
      (∀ n, ((processOrder ds).getD k default).parentName = some n →
        (∀ j, j < k → ((processOrder ds).getD j default).name ≠ n) →
        ((save_all_points ds).1.getD k default).parent_id = none) ∧
      (∀ i, ((save_all_points ds).1.getD k default).parent_id = some i →
        ∃ n j, j < k ∧
          ((processOrder ds).getD k default).parentName = some n ∧
          ((processOrder ds).getD j default).name = n ∧
          i = ((save_all_points ds).1.getD j default).id)) := by
  refine ⟨?_, ?_, ?_⟩
  · intro u hu
    obtain ⟨p, hp, hpu⟩ :=
      List.mem_map.mp (show u ∈ (saveList 0 [] (processOrder ds)).map Prod.fst from hu)
    obtain ⟨d, i, pid, hpe⟩ := saveList_mem 0 [] _ p hp
    rw [← hpu, hpe]
    exact mkUnit_bounds d i pid
  · rw [saved_map_level]
    exact processOrder_sorted ds
  · intro k hk
    refine ⟨?_, ?_, ?_⟩
    · intro hlev
      rw [saved_unit_getD ds k hk]
      have hmem : (processOrder ds).getD k default ∈ ds :=
        mem_processOrder ds _ (getD_mem_of_lt _ k hk)
      have hpn := h1 _ hmem hlev
      show lookupName _ (((processOrder ds).getD k default).parentName) = none
      rw [hpn]
      rfl
    · intro n hp hnone
      rw [saved_unit_getD ds k hk]
      show lookupName _ (((processOrder ds).getD k default).parentName) = none
      rw [hp]
      show Option.map Prod.snd
        ((bindingsOf 0 ((processOrder ds).take k)).find? (fun e => e.1 = n)) = none
      rw [find_bindings_none 0 ((processOrder ds).take k) n
        (fun j hj => by
          rw [List.length_take] at hj
          have hjk : j < k := lt_of_lt_of_le hj (min_le_left _ _)
          rw [getD_take _ _ _ hjk]
          exact hnone j hjk)]
      rfl
    · intro i hi
      rw [saved_unit_getD ds k hk] at hi
      have hi' : lookupName (bindingsOf 0 ((processOrder ds).take k))
          (((processOrder ds).getD k default).parentName) = some i := hi
      cases hpn : ((processOrder ds).getD k default).parentName with
      | none => rw [hpn] at hi'; exact absurd hi' (by simp [lookupName])
      | some n =>
        rw [hpn] at hi'
        have hi'' : Option.map Prod.snd
            ((bindingsOf 0 ((processOrder ds).take k)).find?
              (fun e => e.1 = n)) = some i := hi'
        obtain ⟨x, hx, hxi⟩ := Option.map_eq_some'.mp hi''
        obtain ⟨j, hjlen, hjname, hxe⟩ := find_bindings_some 0 _ n x hx
        rw [List.length_take] at hjlen
        have hjk : j < k := lt_of_lt_of_le hjlen (min_le_left _ _)
        refine ⟨n, j, hjk, rfl, ?_, ?_⟩
        · rw [← getD_take ((processOrder ds)) k j hjk]
          exact hjname
        · have hidj : ((save_all_points ds).1.getD j default).id = j := by
            rw [saved_unit_getD ds j (lt_trans hjk hk)]
            rfl
          rw [hidj, ← hxi, hxe]
          simp

/-- C7 witness: the bounds and the pass ordering at the drafts of the
bullet-plus-example section. -/
theorem c7_witness :
    (((save_all_points (extract_all_points_from_section secBulletExample 1)).1.getD 0
        default).point_name.length ≤ 500) ∧
    ((save_all_points (extract_all_points_from_section secBulletExample 1)).1.map
        SavedUnit.level).Sorted (· ≤ ·) :=
  have h := c7_save_bounds_passes_roots
    (extract_all_points_from_section secBulletExample 1) (by decide)
  ⟨(h.1 _ (by decide)).1, h.2.1⟩

/-! ### Graph-builder lemmas -/

/-- Python's two-argument min agrees with the order-theoretic min. -/
theorem pyMin_eq_min (a b : ℚ) : pyMin a b = min a b := (min_def a b).symm

/-- The nested loops of _build_complete_graph enumerate exactly the
ordered pairs of list positions i < j. -/
theorem build_graph_eq_pairs (ps : List KPoint) :
    build_complete_graph ps =
      (orderedPairs ps).filterMap (fun e => edgeFor e.1 e.2) := by
  induction ps with
  | nil => rfl
  | cons p ps ih =>
    rw [build_complete_graph, orderedPairs, List.filterMap_append, ih,
      List.filterMap_map]
    rfl

theorem mem_orderedPairs (ps : List KPoint) (x : KPoint × KPoint) :
    x ∈ orderedPairs ps ↔
      ∃ i j, i < j ∧ j < ps.length ∧
        x.1 = ps.getD i default ∧ x.2 = ps.getD j default := by
  induction ps with
  | nil => simp [orderedPairs]
  | cons p ps ih =>
    rw [orderedPairs, List.mem_append, ih]
    constructor
    · rintro (h | ⟨i, j, hij, hj, hx1, hx2⟩)
      · obtain ⟨q, hq, he⟩ := List.mem_map.mp h
        obtain ⟨j, hjlen, hqj⟩ := List.mem_iff_getElem.mp hq
        refine ⟨0, j + 1, Nat.succ_pos _, Nat.succ_lt_succ hjlen, ?_, ?_⟩
        · rw [← he]
          rfl
        · rw [← he, List.getD_cons_succ, List.getD_eq_getElem ps default hjlen, hqj]
      · exact ⟨i + 1, j + 1, Nat.succ_lt_succ hij, Nat.succ_lt_succ hj,
          by simpa using hx1, by simpa using hx2⟩
    · rintro ⟨i, j, hij, hj, hx1, hx2⟩
      cases i with
      | zero =>
        left
        cases j with
        | zero => omega
        | succ j' =>
          have hj' : j' < ps.length := Nat.lt_of_succ_lt_succ hj
          refine List.mem_map.mpr ⟨ps.getD j' default, getD_mem_of_lt ps j' hj', ?_⟩
          rw [List.getD_cons_zero] at hx1
          rw [List.getD_cons_succ] at hx2
          cases x with
          | mk a b => simp only at hx1 hx2; rw [hx1, hx2]
      | succ i' =>
        right
        cases j with
        | zero => omega
        | succ j' =>
          exact ⟨i', j', Nat.lt_of_succ_lt_succ hij, Nat.lt_of_succ_lt_succ hj,
            by simpa using hx1, by simpa using hx2⟩

theorem distinctKeepAux_mem (seen l : List (List Char)) (w : List Char) :
    w ∈ distinctKeepAux seen l ↔ w ∈ l ∧ w ∉ seen := by
  induction l generalizing seen with
  | nil => simp [distinctKeepAux]
  | cons a t ih =>
    rw [distinctKeepAux]
    by_cases ha : a ∈ seen
    · rw [if_pos ha, ih]
      constructor
      · rintro ⟨hw, hns⟩
        exact ⟨List.mem_cons_of_mem _ hw, hns⟩
      · rintro ⟨hw, hns⟩
        rcases List.mem_cons.mp hw with rfl | hw
        · exact absurd ha hns
        · exact ⟨hw, hns⟩
    · rw [if_neg ha, List.mem_cons, ih]
      constructor
      · rintro (rfl | ⟨hw, hns⟩)
        · exact ⟨List.mem_cons_self _ _, ha⟩
        · refine ⟨List.mem_cons_of_mem _ hw, ?_⟩
          intro hc
          exact hns (List.mem_cons_of_mem _ hc)
      · rintro ⟨hw, hns⟩
        by_cases hwa : w = a
        · exact Or.inl hwa
        · rcases List.mem_cons.mp hw with rfl | hw2
          · exact absurd rfl hwa
          · refine Or.inr ⟨hw2, ?_⟩
            intro hc
            rcases List.mem_cons.mp hc with h | h
            · exact hwa h
            · exact hns h

theorem distinctKeepAux_nodup (seen l : List (List Char)) :
    (distinctKeepAux seen l).Nodup := by
  induction l generalizing seen with
  | nil => simp [distinctKeepAux]
  | cons a t ih =>
    rw [distinctKeepAux]
    by_cases ha : a ∈ seen
    · rw [if_pos ha]; exact ih seen
    · rw [if_neg ha]
      refine List.nodup_cons.mpr ⟨?_, ih (a :: seen)⟩
      intro hc
      exact ((distinctKeepAux_mem (a :: seen) t a).mp hc).2 (List.mem_cons_self _ _)

theorem distinctKeep_toFinset (l : List (List Char)) :
    (distinctKeep l).toFinset = l.toFinset := by
  apply Finset.ext
  intro w
  rw [List.mem_toFinset, List.mem_toFinset, distinctKeep, distinctKeepAux_mem]
  simp

/-- The overlap list of the graph builder has the cardinality of the set
intersection of the two keyword lists. -/
theorem overlap_length_card (a b : List (List Char)) :
    (overlapOf a b).length = (a.toFinset ∩ b.toFinset).card := by
  have hnd : (overlapOf a b).Nodup :=
    List.Nodup.filter _ (distinctKeepAux_nodup [] a)
  rw [← List.toFinset_card_of_nodup hnd]
  congr 1
  apply Finset.ext
  intro w
  rw [List.mem_toFinset, overlapOf, List.mem_filter, Finset.mem_inter,
    List.mem_toFinset, List.mem_toFinset]
  rw [show distinctKeep a = distinctKeepAux [] a from rfl, distinctKeepAux_mem]
  simp

/-- Members of the overlap list are shared keywords. -/
theorem overlap_mem (a b : List (List Char)) (w : List Char)
    (h : w ∈ overlapOf a b) : w ∈ a ∧ w ∈ b := by
  rw [overlapOf, List.mem_filter,
    show distinctKeep a = distinctKeepAux [] a from rfl, distinctKeepAux_mem] at h
  refine ⟨h.1.1, by simpa using h.2⟩

/-- What a produced edge looks like. -/
theorem edgeFor_spec (p q : KPoint) (e : KRelation) (h : edgeFor p q = some e) :
    p.keywords ≠ [] ∧ q.keywords ≠ [] ∧ p.id ≠ q.id ∧
    overlapOf p.keywords q.keywords ≠ [] ∧
    e = { source_point_id := p.id, target_point_id := q.id,
          relation_strength :=
            pyMin (((overlapOf p.keywords q.keywords).length : ℚ) / 3) 1,
          description := (overlapOf p.keywords q.keywords).take 5 } := by
  unfold edgeFor at h
  split_ifs at h with h1 h2 h3
  · simp only [Option.some.injEq] at h
    rw [Bool.or_eq_true, decide_eq_true_eq, decide_eq_true_eq] at h2
    push_neg at h2
    refine ⟨h1, h2.1, h2.2, ?_, h.symm⟩
    have hpos : 0 < (overlapOf p.keywords q.keywords).length := h3
    exact List.length_pos.mp hpos

/-- A qualifying pair always produces an edge. -/
theorem edgeFor_isSome (p q : KPoint) (h1 : p.keywords ≠ []) (h2 : q.keywords ≠ [])
    (h3 : p.id ≠ q.id) (h4 : overlapOf p.keywords q.keywords ≠ []) :
    ∃ e, edgeFor p q = some e ∧
      e.source_point_id = p.id ∧ e.target_point_id = q.id := by
  unfold edgeFor
  rw [if_neg h1]
  rw [if_neg (by simp [h2, h3])]
  rw [if_pos (by
    have hpos : 0 < (overlapOf p.keywords q.keywords).length :=
      List.length_pos.mpr h4
    omega)]
  exact ⟨_, rfl, rfl, rfl⟩

/-- Generic: mapping a filterMap is a sublist of mapping the source, when
the images agree. -/
theorem map_filterMap_sublist {α β γ : Type} (f : α → Option β) (g : β → γ)
    (hf : α → γ) (l : List α) (hfg : ∀ x e, f x = some e → g e = hf x) :
    ((l.filterMap f).map g).Sublist (l.map hf) := by
  induction l with
  | nil => simp
  | cons x l ih =>
    cases hx : f x with
    | none =>
      simp only [List.filterMap_cons, hx, List.map_cons]
      exact ih.cons _
    | some e =>
      simp only [List.filterMap_cons, hx, List.map_cons, hfg x e hx]
      exact ih.cons₂ _

theorem ids_distinct (ps : List KPoint) (h : (ps.map KPoint.id).Nodup)
    (i j : Nat) (hi : i < ps.length) (hj : j < ps.length) (hij : i ≠ j) :
    (ps.getD i default).id ≠ (ps.getD j default).id := by
  rw [List.getD_eq_getElem ps default hi, List.getD_eq_getElem ps default hj]
  intro he
  have hmi : i < (ps.map KPoint.id).length := by simpa using hi
  have hmj : j < (ps.map KPoint.id).length := by simpa using hj
  have hme : (ps.map KPoint.id)[i] = (ps.map KPoint.id)[j] := by
    rw [List.getElem_map, List.getElem_map]
    exact he
  exact hij ((h.getElem_inj_iff).mp hme)

theorem orderedPairs_comp_mem (ps : List KPoint) (x : KPoint × KPoint)
    (h : x ∈ orderedPairs ps) : x.1 ∈ ps ∧ x.2 ∈ ps := by
  obtain ⟨i, j, hij, hj, h1, h2⟩ := (mem_orderedPairs ps x).mp h
  constructor
  · rw [h1]
    exact getD_mem_of_lt ps i (lt_trans hij hj)
  · rw [h2]
    exact getD_mem_of_lt ps j hj

/-- With pairwise-distinct unit ids the ordered pairs carry pairwise
distinct id pairs. -/
theorem pairs_ids_nodup (ps : List KPoint) (h : (ps.map KPoint.id).Nodup) :
    ((orderedPairs ps).map (fun x => (x.1.id, x.2.id))).Nodup := by
  induction ps with
  | nil => simp [orderedPairs]
  | cons p ps ih =>
    rw [orderedPairs, List.map_append]
    rw [List.map_cons] at h
    have hh := List.nodup_cons.mp h
    refine List.Nodup.append ?_ (ih hh.2) ?_
    · rw [List.map_map]
      have he1 : ((fun x : KPoint × KPoint => (x.1.id, x.2.id)) ∘ fun q => (p, q)) =
          (Prod.mk p.id) ∘ KPoint.id := rfl
      rw [he1, ← List.map_map]
      exact List.Nodup.map (fun a b hab => by simpa using hab) hh.2
    · intro a ha hb
      rw [List.map_map] at ha
      obtain ⟨q, hq, hqe⟩ := List.mem_map.mp ha
      obtain ⟨x, hx, hxe⟩ := List.mem_map.mp hb
      have hx1 : x.1 ∈ ps := (orderedPairs_comp_mem ps x hx).1
      apply hh.1
      rw [List.mem_map]
      refine ⟨x.1, hx1, ?_⟩
      have hpq : ((p.id, q.id) : Nat × Nat) = (x.1.id, x.2.id) := by
        rw [show ((p.id, q.id) : Nat × Nat) = (((fun x : KPoint × KPoint =>
          (x.1.id, x.2.id)) ∘ fun q => (p, q)) q) from rfl, hqe, ← hxe]
      exact (Prod.mk.injEq _ _ _ _ ▸ hpq).1.symm ▸ rfl

/-- C4 Graph construction, with pairwise-distinct unit ids.  First: every
created edge joins an earlier unit (source) to a later one (target) with
nonempty keyword lists and a nonempty keyword intersection, is never a
self-loop, has strength exactly min of intersection-size over 3 and 1,
and its description lists at most 5 keywords, all shared.  Second: every
unordered pair with nonempty keyword lists and nonempty intersection gets
an edge, directed from the earlier unit to the later.  Third: no pair of
units receives two edges.  Finally the end-to-end instance: the two units
with keyword sets 排序算法复杂度 and 算法数据结构 produce exactly one
edge, of strength 1/3, whose description contains 算法. -/
theorem c4_graph_edges (ps : List KPoint) (hids : (ps.map KPoint.id).Nodup) :
    (∀ e ∈ build_complete_graph ps,
      e.source_point_id ≠ e.target_point_id ∧
      ∃ i j, i < j ∧ j < ps.length ∧
        e.source_point_id = (ps.getD i default).id ∧
        e.target_point_id = (ps.getD j default).id ∧
        (ps.getD i default).keywords ≠ [] ∧
        (ps.getD j default).keywords ≠ [] ∧
        ((ps.getD i default).keywords.toFinset ∩
          (ps.getD j default).keywords.toFinset).Nonempty ∧
        e.relation_strength =
          min ((((ps.getD i default).keywords.toFinset ∩
            (ps.getD j default).keywords.toFinset).card : ℚ) / 3) 1 ∧
        e.description.length ≤ 5 ∧
        (∀ w ∈ e.description, w ∈ (ps.getD i default).keywords ∧
          w ∈ (ps.getD j default).keywords)) ∧
    (∀ i j, i < j → j < ps.length →
      (ps.getD i default).keywords ≠ [] →
      (ps.getD j default).keywords ≠ [] →
      ((ps.getD i default).keywords.toFinset ∩
        (ps.getD j default).keywords.toFinset).Nonempty →
      ∃ e ∈ build_complete_graph ps,
        e.source_point_id = (ps.getD i default).id ∧
        e.target_point_id = (ps.getD j default).id) ∧
    ((build_complete_graph ps).map
      (fun e => (e.source_point_id, e.target_point_id))).Nodup ∧
    (build_complete_graph psC4).length = 1 ∧
    (∀ e ∈ build_complete_graph psC4,
      e.source_point_id = 1 ∧ e.target_point_id = 2 ∧
      e.relation_strength = 1 / 3 ∧ "算法".data ∈ e.description) := by
  have hconc : build_complete_graph psC4 =
      [{ source_point_id := 1, target_point_id := 2,
         relation_strength := pyMin (((1 : ℕ) : ℚ) / 3) 1,
         description := ["算法".data] }] := rfl
  refine ⟨?_, ?_, ?_, ?_, ?_⟩
  · intro e he
    rw [build_graph_eq_pairs] at he
    obtain ⟨x, hx, hex⟩ := List.mem_filterMap.mp he
    obtain ⟨i, j, hij, hj, hx1, hx2⟩ := (mem_orderedPairs ps x).mp hx
    obtain ⟨hk1, hk2, hid, hov, hee⟩ := edgeFor_spec x.1 x.2 e hex
    rw [hx1] at hk1 hid hov hee
    rw [hx2] at hk2 hid hov hee
    have hcard : ((ps.getD i default).keywords.toFinset ∩
        (ps.getD j default).keywords.toFinset).Nonempty := by
      rw [← Finset.card_pos, ← overlap_length_card]
      exact List.length_pos.mpr hov
    refine ⟨?_, i, j, hij, hj, ?_, ?_, hk1, hk2, hcard, ?_, ?_, ?_⟩
    · rw [hee]
      exact hid
    · rw [hee]
    · rw [hee]
    · rw [hee]
      show pyMin (((overlapOf (ps.getD i default).keywords
        (ps.getD j default).keywords).length : ℚ) / 3) 1 = _
      rw [overlap_length_card, pyMin_eq_min]
    · rw [hee]
      exact List.length_take_le _ _
    · intro w hw
      rw [hee] at hw
      exact overlap_mem _ _ w (List.take_subset _ _ hw)
  · intro i j hij hj hk1 hk2 hne
    have hov : overlapOf (ps.getD i default).keywords
        (ps.getD j default).keywords ≠ [] := by
      rw [← List.length_pos, overlap_length_card]
      exact Finset.card_pos.mpr hne
    have hid : (ps.getD i default).id ≠ (ps.getD j default).id :=
      ids_distinct ps hids i j (lt_trans hij hj) hj (Nat.ne_of_lt hij)
    obtain ⟨e, hes, he1, he2⟩ := edgeFor_isSome _ _ hk1 hk2 hid hov
    refine ⟨e, ?_, he1, he2⟩
    rw [build_graph_eq_pairs]
    exact List.mem_filterMap.mpr ⟨(ps.getD i default, ps.getD j default),
      (mem_orderedPairs ps _).mpr ⟨i, j, hij, hj, rfl, rfl⟩, hes⟩
  · rw [build_graph_eq_pairs]
    refine List.Nodup.sublist ?_ (pairs_ids_nodup ps hids)
    exact map_filterMap_sublist _ _ _ _ (fun x e hxe => by
      obtain ⟨_, _, _, _, hee⟩ := edgeFor_spec x.1 x.2 e hxe
      rw [hee])
  · rw [hconc]
    rfl
  · intro e he
    rw [hconc] at he
    rw [List.mem_singleton] at he
    subst he
    refine ⟨rfl, rfl, ?_, by decide⟩
    show pyMin (((1 : ℕ) : ℚ) / 3) 1 = 1 / 3
    rw [pyMin_eq_min]
    norm_num

/-- C4 witness: the edge list of the concrete two-unit instance has
pairwise-distinct endpoint pairs (exactly one edge per pair). -/
theorem c4_witness :
    ((build_complete_graph psC4).map
      (fun e => (e.source_point_id, e.target_point_id))).Nodup :=
  (c4_graph_edges psC4 (by decide)).2.2.1

/-! ### Keyword-summarizer lemmas -/

/-- Replacing the seen set by one with the same members changes nothing. -/
theorem distinctKeepAux_congr (s1 s2 l : List (List Char))
    (h : ∀ x, x ∈ s1 ↔ x ∈ s2) :
    distinctKeepAux s1 l = distinctKeepAux s2 l := by
  induction l generalizing s1 s2 with
  | nil => rfl
  | cons a t ih =>
    rw [distinctKeepAux, distinctKeepAux]
    by_cases ha : a ∈ s1
    · rw [if_pos ha, if_pos ((h a).mp ha)]
      exact ih s1 s2 h
    · rw [if_neg ha, if_neg (fun hc => ha ((h a).mpr hc))]
      rw [ih (a :: s1) (a :: s2) (fun x => by simp [List.mem_cons, h x])]

/-- The keys of one dictionary update. -/
theorem bumpWord_keys (m : List (List Char × Nat)) (w : List Char) :
    (bumpWord m w).map Prod.fst =
      if w ∈ m.map Prod.fst then m.map Prod.fst else m.map Prod.fst ++ [w] := by
  unfold bumpWord
  by_cases hw : m.any (fun e => e.1 = w)
  · rw [if_pos hw, if_pos]
    · have hfix : (Prod.fst ∘ fun e : List Char × Nat =>
          if e.1 = w then (e.1, e.2 + 1) else e) = Prod.fst := by
        funext e
        by_cases h : e.1 = w <;> simp [h]
      rw [List.map_map, hfix]
    · rw [List.any_eq_true] at hw
      obtain ⟨e, he, hew⟩ := hw
      rw [decide_eq_true_eq] at hew
      exact List.mem_map.mpr ⟨e, he, hew⟩
  · have hnotin : w ∉ m.map Prod.fst := by
      intro hc
      apply hw
      rw [List.any_eq_true]
      obtain ⟨e, he, hef⟩ := List.mem_map.mp hc
      exact ⟨e, he, by simp [hef]⟩
    rw [if_neg hw, if_neg hnotin, List.map_append]
    rfl

/-- The keys of the frequency fold are the initial keys followed by the
first occurrences of the remaining words. -/
theorem foldl_bump_keys (ws : List (List Char)) (m : List (List Char × Nat)) :
    (ws.foldl bumpWord m).map Prod.fst =
      m.map Prod.fst ++ distinctKeepAux (m.map Prod.fst) ws := by
  induction ws generalizing m with
  | nil => simp [distinctKeepAux]
  | cons w ws ih =>
    rw [List.foldl_cons, ih (bumpWord m w), bumpWord_keys, distinctKeepAux]
    by_cases hw : w ∈ m.map Prod.fst
    · rw [if_pos hw, if_pos hw]
    · rw [if_neg hw, if_neg hw,
        distinctKeepAux_congr (m.map Prod.fst ++ [w]) (w :: m.map Prod.fst) ws
          (fun x => by simp [List.mem_append, List.mem_cons, or_comm]),
        List.append_assoc]
      rfl

/-- find? through a key-preserving map. -/
theorem find?_map_key (m : List (List Char × Nat))
    (u : List Char × Nat → List Char × Nat) (hu : ∀ e, (u e).1 = e.1)
    (p : List Char → Bool) :
    (m.map u).find? (fun e => p e.1) = (m.find? (fun e => p e.1)).map u := by
  induction m with
  | nil => rfl
  | cons e t ih =>
    rw [List.map_cons]
    by_cases hp : p e.1
    · rw [List.find?_cons_of_pos _ (by simpa [hu e] using hp),
        List.find?_cons_of_pos _ (by simpa using hp)]
      rfl
    · rw [List.find?_cons_of_neg _ (by simpa [hu e] using hp),
        List.find?_cons_of_neg _ (by simpa using hp), ih]

/-- Updating the looked-up word bumps its count (or inserts count 1). -/
theorem bumpWord_find_eq (m : List (List Char × Nat)) (w : List Char) :
    (bumpWord m w).find? (fun e => e.1 = w) =
      match m.find? (fun e => e.1 = w) with
      | some e => some (e.1, e.2 + 1)
      | none => some (w, 1) := by
  unfold bumpWord
  by_cases hw : m.any (fun e => e.1 = w)
  · rw [if_pos hw,
      find?_map_key m _ (fun e => by by_cases h : e.1 = w <;> simp [h]) (fun k => k = w)]
    rw [List.any_eq_true] at hw
    obtain ⟨e, he, hew⟩ := hw
    have hsome : (m.find? (fun e => e.1 = w)).isSome := by
      rw [List.find?_isSome]
      exact ⟨e, he, hew⟩
    obtain ⟨a, ha⟩ := Option.isSome_iff_exists.mp hsome
    have hpa : a.1 = w := by simpa using List.find?_some ha
    rw [ha]
    simp [hpa]
  · rw [if_neg hw, List.find?_append]
    have hnone : m.find? (fun e => e.1 = w) = none := by
      rw [List.find?_eq_none]
      intro x hx
      simp only [decide_eq_true_eq]
      intro hc
      apply hw
      rw [List.any_eq_true]
      exact ⟨x, hx, by simp [hc]⟩
    rw [hnone]
    simp [List.find?]

/-- Updating a different word leaves the lookup unchanged. -/
theorem bumpWord_find_ne (m : List (List Char × Nat)) (w v : List Char)
    (hv : v ≠ w) :
    (bumpWord m v).find? (fun e => e.1 = w) = m.find? (fun e => e.1 = w) := by
  unfold bumpWord
  by_cases hany : m.any (fun e => e.1 = v)
  · rw [if_pos hany,
      find?_map_key m _ (fun e => by by_cases h : e.1 = v <;> simp [h]) (fun k => k = w)]
    cases hf : m.find? (fun e => e.1 = w) with
    | none => rfl
    | some a =>
      have hpa : a.1 = w := by simpa using List.find?_some hf
      have hne : ¬ a.1 = v := by
        rw [hpa]
        exact fun hc => hv hc.symm
      simp [Option.map_some', hne]
  · rw [if_neg hany, List.find?_append]
    cases hf : m.find? (fun e => e.1 = w) with
    | some a => rfl
    | none =>
      have hsing : (List.find? (fun e => e.1 = w) [(v, 1)]) = none := by
        simp [List.find?, hv]
      rw [hsing]
      rfl

/-- The frequency fold adds, for each key, the number of occurrences in
the folded word list. -/
theorem foldl_bump_find (ws : List (List Char)) (m : List (List Char × Nat))
    (w : List Char) :
    (ws.foldl bumpWord m).find? (fun e => e.1 = w) =
      match m.find? (fun e => e.1 = w) with
      | some e => some (e.1, e.2 + ws.count w)
      | none => if w ∈ ws then some (w, ws.count w) else none := by
  induction ws generalizing m with
  | nil =>
    cases h : m.find? (fun e => e.1 = w) with
    | some e => simp [h]
    | none => simp [h]
  | cons v ws ih =>
    rw [List.foldl_cons, ih (bumpWord m v)]
    by_cases hv : v = w
    · subst hv
      rw [bumpWord_find_eq]
      cases h : m.find? (fun e => e.1 = v) with
      | some e =>
        have harith : e.2 + 1 + ws.count v = e.2 + (v :: ws).count v := by
          rw [List.count_cons, if_pos (by simp)]
          omega
        simp only [h]
        rw [harith]
      | none =>
        simp only [h]
        have harith : 1 + ws.count v = (v :: ws).count v := by
          rw [List.count_cons, if_pos (by simp)]
          omega
        rw [if_pos (List.mem_cons_self v ws), harith]
    · rw [bumpWord_find_ne m w v hv]
      have hcnt : (v :: ws).count w = ws.count w := by
        rw [List.count_cons]
        simp [hv]
      cases h : m.find? (fun e => e.1 = w) with
      | some e => simp only [h, hcnt]
      | none =>
        simp only [h, hcnt]
        by_cases hw : w ∈ ws
        · rw [if_pos hw, if_pos (List.mem_cons_of_mem v hw)]
        · rw [if_neg hw, if_neg (by
            rw [List.mem_cons]
            rintro (rfl | hc)
            · exact hv rfl
            · exact hw hc)]

/-- In a key-nodup association list, find? returns the member itself. -/
theorem find?_of_mem_nodupKeys (m : List (List Char × Nat))
    (hm : (m.map Prod.fst).Nodup) (e : List Char × Nat) (he : e ∈ m) :
    m.find? (fun x => x.1 = e.1) = some e := by
  induction m with
  | nil => simp at he
  | cons a t ih =>
    rw [List.map_cons] at hm
    have hh := List.nodup_cons.mp hm
    rcases List.mem_cons.mp he with rfl | ht
    · exact List.find?_cons_of_pos _ (by simp)
    · have hne : a.1 ≠ e.1 := by
        intro hc
        apply hh.1
        rw [hc]
        exact List.mem_map.mpr ⟨e, ht, rfl⟩
      rw [List.find?_cons_of_neg _ (by simp [hne]), ih hh.2 ht]

theorem wordFreq_keys (cs : List Char) :
    (wordFreq cs).map Prod.fst = distinctKeep (candidateWords cs) := by
  rw [wordFreq, foldl_bump_keys]
  rfl

theorem wordFreq_keys_nodup (cs : List Char) :
    ((wordFreq cs).map Prod.fst).Nodup := by
  rw [wordFreq_keys]
  exact distinctKeepAux_nodup [] _

/-- Every dictionary entry carries the frequency of its word among the
candidates. -/
theorem wordFreq_count (cs : List Char) (e : List Char × Nat)
    (he : e ∈ wordFreq cs) : e.2 = (candidateWords cs).count e.1 := by
  have hf := find?_of_mem_nodupKeys _ (wordFreq_keys_nodup cs) e he
  rw [wordFreq, foldl_bump_find] at hf
  simp only [List.find?_nil] at hf
  by_cases hm : e.1 ∈ candidateWords cs
  · rw [if_pos hm] at hf
    have := Option.some.inj hf
    rw [← this]
  · rw [if_neg hm] at hf
    exact absurd hf (by simp)

theorem insertByCount_perm (x : List Char × Nat) (l : List (List Char × Nat)) :
    (insertByCount x l).Perm (x :: l) := by
  induction l with
  | nil => exact List.Perm.refl _
  | cons y ys ih =>
    rw [insertByCount]
    by_cases h : y.2 < x.2
    · rw [if_pos h]
    · rw [if_neg h]
      exact (ih.cons y).trans (List.Perm.swap x y ys)

theorem insertByCount_pairwise (x : List Char × Nat) (l : List (List Char × Nat))
    (h : l.Pairwise (fun a b => b.2 ≤ a.2)) :
    (insertByCount x l).Pairwise (fun a b => b.2 ≤ a.2) := by
  induction l with
  | nil => simp [insertByCount]
  | cons y ys ih =>
    rw [List.pairwise_cons] at h
    rw [insertByCount]
    by_cases hlt : y.2 < x.2
    · rw [if_pos hlt]
      refine List.pairwise_cons.mpr ⟨?_, List.pairwise_cons.mpr h⟩
      intro b hb
      rcases List.mem_cons.mp hb with rfl | hb2
      · exact le_of_lt hlt
      · exact le_trans (h.1 b hb2) (le_of_lt hlt)
    · rw [if_neg hlt]
      refine List.pairwise_cons.mpr ⟨?_, ih h.2⟩
      intro b hb
      have hb2 := (insertByCount_perm x ys).mem_iff.mp hb
      rcases List.mem_cons.mp hb2 with rfl | hb3
      · exact le_of_not_lt hlt
      · exact h.1 b hb3

/-- Stability of one insertion: within each count class the new entry
lands at the end. -/
theorem insertByCount_filter (x : List Char × Nat) (l : List (List Char × Nat))
    (h : l.Pairwise (fun a b => b.2 ≤ a.2)) (c : Nat) :
    (insertByCount x l).filter (fun e => e.2 = c) =
      l.filter (fun e => e.2 = c) ++ if x.2 = c then [x] else [] := by
  induction l with
  | nil =>
    by_cases hx : x.2 = c <;> simp [insertByCount, List.filter, hx]
  | cons y ys ih =>
    rw [List.pairwise_cons] at h
    rw [insertByCount]
    by_cases hlt : y.2 < x.2
    · rw [if_pos hlt]
      by_cases hx : x.2 = c
      · have hemp : (y :: ys).filter (fun e => e.2 = c) = [] := by
          rw [List.filter_eq_nil_iff]
          intro a ha
          rcases List.mem_cons.mp ha with rfl | ha2
          · simp only [decide_eq_true_eq]
            omega
          · have hya := h.1 a ha2
            simp only [decide_eq_true_eq]
            omega
        rw [List.filter_cons_of_pos (by simp [hx]), hemp]
        simp [hx]
      · rw [List.filter_cons_of_neg (by simp [hx])]
        simp [hx]
    · rw [if_neg hlt]
      by_cases hy : y.2 = c
      · rw [List.filter_cons_of_pos (by simp [hy]), ih h.2,
          List.filter_cons_of_pos (by simp [hy])]
        rfl
      · rw [List.filter_cons_of_neg (by simp [hy]), ih h.2,
          List.filter_cons_of_neg (by simp [hy])]

/-- The stable descending sort: a permutation, sorted by count, and
within each count class the dictionary order is preserved. -/
theorem sortByCountDesc_spec (l : List (List Char × Nat)) :
    (sortByCountDesc l).Perm l ∧
    (sortByCountDesc l).Pairwise (fun a b => b.2 ≤ a.2) ∧
    (∀ c, (sortByCountDesc l).filter (fun e => e.2 = c) =
      l.filter (fun e => e.2 = c)) := by
  suffices h : ∀ acc : List (List Char × Nat),
      acc.Pairwise (fun a b => b.2 ≤ a.2) →
      (l.foldl (fun acc x => insertByCount x acc) acc).Perm (acc ++ l) ∧
      (l.foldl (fun acc x => insertByCount x acc) acc).Pairwise
        (fun a b => b.2 ≤ a.2) ∧
      (∀ c, (l.foldl (fun acc x => insertByCount x acc) acc).filter
          (fun e => e.2 = c) =
        acc.filter (fun e => e.2 = c) ++ l.filter (fun e => e.2 = c)) by
    obtain ⟨hp, hs, hf⟩ := h [] (by simp)
    exact ⟨hp, hs, fun c => by simpa using hf c⟩
  intro acc hacc
  induction l generalizing acc with
  | nil =>
    refine ⟨?_, hacc, ?_⟩
    · simp
    · intro c
      simp
  | cons x xs ih =>
    rw [List.foldl_cons]
    obtain ⟨hp, hs, hf⟩ := ih (insertByCount x acc) (insertByCount_pairwise x acc hacc)
    refine ⟨?_, hs, ?_⟩
    · refine hp.trans (((insertByCount_perm x acc).append_right xs).trans ?_)
      exact List.perm_middle.symm
    · intro c
      rw [hf c, insertByCount_filter x acc hacc c]
      by_cases hx : x.2 = c
      · rw [List.filter_cons_of_pos (by simp [hx]), if_pos hx]
        simp
      · rw [List.filter_cons_of_neg (by simp [hx]), if_neg hx]
        simp

/-- C5 The claim's tie order (first occurrence in the text) is refuted:
for the text abc 汉字 the text-order spec puts abc first among the
equal-frequency candidates, but the code collects all CJK runs before all
Latin runs, so 汉字 comes out first. -/
theorem c5_counterexample :
    extract_keywords_advanced "abc 汉字".data = ["汉字".data, "abc".data] ∧
    keywords_spec_textorder "abc 汉字".data = ["abc".data, "汉字".data] ∧
    extract_keywords_advanced "abc 汉字".data ≠
      keywords_spec_textorder "abc 汉字".data := by decide

/-- C5 amended: at most 15 keywords, each of length 2 to 20 and a CJK or
Latin run of the text, no duplicates; each dictionary entry counts its
word's occurrences among the candidates (all CJK runs in text order, then
all Latin runs in text order, lengths 2 to 20); the dictionary keys are
the candidates' first occurrences in that CJK-then-Latin order; and the
output is the top 15 of a stable descending sort by count of that
dictionary: sorted by descending frequency, with ties kept in
candidate order (so CJK candidates precede equally-frequent Latin
candidates — not text order). -/
theorem c5_keywords_amended (cs : List Char) :
    (extract_keywords_advanced cs).length ≤ 15 ∧
    (∀ w ∈ extract_keywords_advanced cs,
      2 ≤ w.length ∧ w.length ≤ 20 ∧ (w ∈ cjkRuns cs ∨ w ∈ latinRuns cs)) ∧
    (extract_keywords_advanced cs).Nodup ∧
    (∀ e ∈ wordFreq cs, e.2 = (candidateWords cs).count e.1) ∧
    (wordFreq cs).map Prod.fst = distinctKeep (candidateWords cs) ∧
    (∃ S : List (List Char × Nat), S.Perm (wordFreq cs) ∧
      S.Pairwise (fun a b => b.2 ≤ a.2) ∧
      (∀ c, S.filter (fun e => e.2 = c) =
        (wordFreq cs).filter (fun e => e.2 = c)) ∧
      extract_keywords_advanced cs = (S.take 15).map Prod.fst) := by
  obtain ⟨hperm, hsort, hfilter⟩ := sortByCountDesc_spec (wordFreq cs)
  have hmemw : ∀ w ∈ extract_keywords_advanced cs, w ∈ candidateWords cs := by
    intro w hw
    obtain ⟨e, he, hew⟩ := List.mem_map.mp hw
    have he2 : e ∈ sortByCountDesc (wordFreq cs) := List.take_subset _ _ he
    have he3 : e ∈ wordFreq cs := hperm.mem_iff.mp he2
    have hkey : w ∈ (wordFreq cs).map Prod.fst := List.mem_map.mpr ⟨e, he3, hew⟩
    rw [wordFreq_keys] at hkey
    have := (distinctKeepAux_mem [] (candidateWords cs) w).mp hkey
    exact this.1
  refine ⟨?_, ?_, ?_, wordFreq_count cs, wordFreq_keys cs,
    sortByCountDesc (wordFreq cs), hperm, hsort, hfilter, rfl⟩
  · rw [extract_keywords_advanced, List.length_map]
    exact List.length_take_le _ _
  · intro w hw
    have hc := hmemw w hw
    rw [candidateWords, List.mem_filter] at hc
    have hb := hc.2
    rw [Bool.and_eq_true, decide_eq_true_eq, decide_eq_true_eq] at hb
    exact ⟨hb.1, hb.2, List.mem_append.mp hc.1⟩
  · have hkeys : ((sortByCountDesc (wordFreq cs)).map Prod.fst).Nodup :=
      ((hperm.map Prod.fst).nodup_iff).mpr (wordFreq_keys_nodup cs)
    have hmt : ((sortByCountDesc (wordFreq cs)).take 15).map Prod.fst =
        ((sortByCountDesc (wordFreq cs)).map Prod.fst).take 15 := by
      rw [List.map_take]
    rw [extract_keywords_advanced, hmt]
    exact List.Nodup.sublist (List.take_sublist _ _) hkeys

/-! ### Segmenter lemmas -/

/-- A whitespace-only string strips to nothing. -/
theorem pyStrip_ws (p : List Char) (h : p.all isPySpace = true) :
    pyStrip p = [] := by
  rw [pyStrip]
  have h1 : p.dropWhile isPySpace = [] := by
    rw [List.dropWhile_eq_nil_iff]
    rw [List.all_eq_true] at h
    exact h
  rw [h1]
  rfl

/-- The eight whitespace characters, enumerated. -/
theorem isPySpace_cases (c : Char) (h : isPySpace c = true) :
    c = ' ' ∨ c = '\t' ∨ c = '\n' ∨ c = Char.ofNat 13 ∨ c = Char.ofNat 11 ∨
    c = Char.ofNat 12 ∨ c = Char.ofNat 160 ∨ c = Char.ofNat 0x3000 := by
  rw [isPySpace] at h
  simp only [Bool.or_eq_true, decide_eq_true_eq] at h
  tauto

/-- A whitespace character starts no chapter-pattern match. -/
theorem seg1Match_ws (c : Char) (t : List Char) (h : isPySpace c = true) :
    seg1Match (c :: t) = none := by
  rcases isPySpace_cases c h with rfl | rfl | rfl | rfl | rfl | rfl | rfl | rfl <;> rfl

theorem seg2Match_ws (c : Char) (t : List Char) (h : isPySpace c = true) :
    seg2Match (c :: t) = none := by
  rcases isPySpace_cases c h with rfl | rfl | rfl | rfl | rfl | rfl | rfl | rfl <;> rfl

theorem seg3Match_ws (b : Bool) (c : Char) (t : List Char) (h : isPySpace c = true) :
    seg3Match b (c :: t) = none := by
  rcases isPySpace_cases c h with rfl | rfl | rfl | rfl | rfl | rfl | rfl | rfl <;>
    cases b <;> rfl

theorem seg4Match_ws (b : Bool) (c : Char) (t : List Char) (h : isPySpace c = true) :
    seg4Match b (c :: t) = none := by
  rcases isPySpace_cases c h with rfl | rfl | rfl | rfl | rfl | rfl | rfl | rfl <;>
    cases b <;> rfl

theorem seg5Match_ws (c : Char) (t : List Char) (h : isPySpace c = true) :
    seg5Match (c :: t) = none := by
  rcases isPySpace_cases c h with rfl | rfl | rfl | rfl | rfl | rfl | rfl | rfl <;> rfl

/-- A matcher that fails on every whitespace-headed suffix finds nothing
in a whitespace-only text. -/
theorem finditer_none_ws {α : Type} (m : Bool → List Char → Option (MRes α))
    (hm : ∀ (b : Bool) (c : Char) (t : List Char), isPySpace c = true →
      m b (c :: t) = none) :
    ∀ (fuel : Nat) (b : Bool) (cs : List Char), cs.all isPySpace = true →
      finditer m fuel b cs = [] := by
  intro fuel
  induction fuel with
  | zero => intro b cs _; rfl
  | succ n ih =>
    intro b cs hcs
    cases cs with
    | nil => rfl
    | cons c t =>
      rw [List.all_cons, Bool.and_eq_true] at hcs
      show (match m b (c :: t) with
        | some r => r.val :: finditer m n (r.g0.getLast? = some '\n') r.rest
        | none => finditer m n (c = '\n') t) = []
      rw [hm b c t hcs.1]
      exact ih _ t hcs.2

theorem segCascade_ws (msl : List (Bool → List Char → Option (MRes (List Char))))
    (cs : List Char) (hcs : cs.all isPySpace = true)
    (hm : ∀ m ∈ msl, ∀ (b : Bool) (c : Char) (t : List Char),
      isPySpace c = true → m b (c :: t) = none) :
    segCascade msl cs = [] := by
  induction msl with
  | nil => rfl
  | cons m ms ih =>
    have hfind : finditer (withWhole m) (cs.length + 1) true cs = [] :=
      finditer_none_ws _ (fun b c t hc => by
        rw [withWhole, hm m (List.mem_cons_self _ _) b c t hc]
        rfl) _ true cs hcs
    rw [segCascade, hfind]
    simp only [List.length_nil]
    rw [if_neg (by omega)]
    exact ih (fun m' hm' => hm m' (List.mem_cons_of_mem _ hm'))

theorem seg_strategy1_ws (cs : List Char) (h : cs.all isPySpace = true) :
    seg_strategy1 cs = [] := by
  rw [seg_strategy1]
  refine segCascade_ws _ cs h ?_
  intro m hm b c t hc
  simp only [List.mem_cons, List.not_mem_nil, or_false] at hm
  rcases hm with rfl | rfl | rfl | rfl | rfl
  · exact seg1Match_ws c t hc
  · exact seg2Match_ws c t hc
  · exact seg3Match_ws b c t hc
  · exact seg4Match_ws b c t hc
  · exact seg5Match_ws c t hc

/-- Every piece of the blank-line split of a whitespace-only text is
whitespace-only. -/
theorem splitBlankAux_all_ws (fuel : Nat) (acc cs : List Char)
    (hacc : acc.all isPySpace = true) (hcs : cs.all isPySpace = true) :
    ∀ p ∈ splitBlankAux fuel acc cs, p.all isPySpace = true := by
  induction fuel generalizing acc cs with
  | zero =>
    intro p hp
    simp only [splitBlankAux, List.mem_singleton] at hp
    subst hp
    rw [List.all_append, List.all_reverse, hacc, hcs]
    rfl
  | succ n ih =>
    intro p hp
    cases cs with
    | nil =>
      simp only [splitBlankAux, List.mem_singleton] at hp
      subst hp
      rw [List.all_reverse]
      exact hacc
    | cons c t =>
      rw [List.all_cons, Bool.and_eq_true] at hcs
      by_cases hc : c = '\n'
      · rw [splitBlankAux, if_pos hc] at hp
        cases hcut : lastNLCut (t.takeWhile isPySpace) with
        | some k =>
          rw [hcut] at hp
          rcases List.mem_cons.mp hp with rfl | hp2
          · rw [List.all_reverse]
            exact hacc
          · refine ih [] (t.drop k) rfl ?_ p hp2
            rw [List.all_eq_true] at hcs ⊢
            exact fun x hx => hcs.2 x (List.drop_subset k t hx)
        | none =>
          rw [hcut] at hp
          exact ih (c :: acc) t
            (by rw [List.all_cons, Bool.and_eq_true]; exact ⟨hcs.1, hacc⟩) hcs.2 p hp
      · rw [splitBlankAux, if_neg hc] at hp
        exact ih (c :: acc) t
          (by rw [List.all_cons, Bool.and_eq_true]; exact ⟨hcs.1, hacc⟩) hcs.2 p hp

/-- Every piece of the newline split of a whitespace-only text is
whitespace-only. -/
theorem splitNLAux_all_ws (cs acc : List Char)
    (hacc : acc.all isPySpace = true) (hcs : cs.all isPySpace = true) :
    ∀ p ∈ splitNLAux cs acc, p.all isPySpace = true := by
  induction cs generalizing acc with
  | nil =>
    intro p hp
    simp only [splitNLAux, List.mem_singleton] at hp
    subst hp
    rw [List.all_reverse]
    exact hacc
  | cons c t ih =>
    intro p hp
    rw [List.all_cons, Bool.and_eq_true] at hcs
    by_cases hc : c = '\n'
    · rw [splitNLAux, if_pos hc] at hp
      rcases List.mem_cons.mp hp with rfl | hp2
      · rw [List.all_reverse]
        exact hacc
      · exact ih [] rfl hcs.2 p hp2
    · rw [splitNLAux, if_neg hc] at hp
      exact ih (c :: acc)
        (by rw [List.all_cons, Bool.and_eq_true]; exact ⟨hcs.1, hacc⟩) hcs.2 p hp

theorem seg_strategy2_ws (cs : List Char) (h : cs.all isPySpace = true) :
    seg_strategy2 cs = [] := by
  rw [seg_strategy2]
  have hfil : ((splitBlankLines cs).map pyStrip).filter
      (fun p => 50 < p.length) = [] := by
    rw [List.filter_eq_nil_iff]
    intro a ha
    obtain ⟨p, hp, hpa⟩ := List.mem_map.mp ha
    have hall := splitBlankAux_all_ws (cs.length + 1) [] cs rfl h p hp
    rw [← hpa, pyStrip_ws p hall]
    simp
  rw [hfil]
  rfl

theorem seg_strategy3_ws (cs : List Char) (h : cs.all isPySpace = true) :
    seg_strategy3 cs = [] := by
  rw [seg_strategy3]
  have hfil : ((splitNL cs).map pyStrip).filter (fun l => 30 < l.length) = [] := by
    rw [List.filter_eq_nil_iff]
    intro a ha
    obtain ⟨p, hp, hpa⟩ := List.mem_map.mp ha
    have hall := splitNLAux_all_ws cs [] rfl h p hp
    rw [← hpa, pyStrip_ws p hall]
    simp
  rw [hfil]
  rfl

theorem sectionsOf_orders (ms : List (List Char × List Char)) :
    (sectionsOf ms).map Sec.order = List.range (sectionsOf ms).length := by
  rw [sectionsOf, List.map_map, List.length_map]
  have hcomp : (Sec.order ∘ fun e : Nat × (List Char × List Char) =>
      ({ title := (pyStrip ((splitNL e.2.1).headD [])).take 200
         content := pyStrip e.2.2, level := 1, order := e.1 } : Sec)) =
      Prod.fst := rfl
  rw [hcomp, List.enum_map_fst, List.enum_length]

theorem segCascade_orders (msl : List (Bool → List Char → Option (MRes (List Char))))
    (cs : List Char) :
    (segCascade msl cs).map Sec.order = List.range (segCascade msl cs).length := by
  induction msl with
  | nil => rfl
  | cons m ms ih =>
    rw [segCascade]
    by_cases hlen : 1 ≤ (finditer (withWhole m) (cs.length + 1) true cs).length
    · rw [if_pos hlen]
      exact sectionsOf_orders _
    · rw [if_neg hlen]
      exact ih

theorem seg_strategy2_orders (cs : List Char) :
    (seg_strategy2 cs).map Sec.order = List.range (seg_strategy2 cs).length := by
  rw [seg_strategy2, List.map_map, List.length_map]
  have hcomp : (Sec.order ∘ fun e : Nat × List Char =>
      ({ title := e.2.take 100, content := e.2, level := 1, order := e.1 } : Sec)) =
      Prod.fst := rfl
  rw [hcomp, List.enum_map_fst, List.enum_length]

theorem seg_strategy3_orders (cs : List Char) :
    (seg_strategy3 cs).map Sec.order = List.range (seg_strategy3 cs).length := by
  rw [seg_strategy3, List.map_map, List.length_map]
  have hcomp : (Sec.order ∘ fun e : Nat × List Char =>
      ({ title := e.2.take 100, content := e.2, level := 1, order := e.1 } : Sec)) =
      Prod.fst := rfl
  rw [hcomp, List.enum_map_fst, List.enum_length]

theorem seg_strategy2_contents (cs : List Char) :
    (seg_strategy2 cs).map Sec.content =
      ((splitBlankLines cs).map pyStrip).filter (fun p => 50 < p.length) := by
  rw [seg_strategy2, List.map_map]
  have hcomp : (Sec.content ∘ fun e : Nat × List Char =>
      ({ title := e.2.take 100, content := e.2, level := 1, order := e.1 } : Sec)) =
      Prod.snd := rfl
  rw [hcomp, List.enum_map_snd]

theorem seg_strategy3_contents (cs : List Char) :
    (seg_strategy3 cs).map Sec.content =
      (((splitNL cs).map pyStrip).filter (fun l => 30 < l.length)).take 100 := by
  rw [seg_strategy3, List.map_map]
  have hcomp : (Sec.content ∘ fun e : Nat × List Char =>
      ({ title := e.2.take 100, content := e.2, level := 1, order := e.1 } : Sec)) =
      Prod.snd := rfl
  rw [hcomp, List.enum_map_snd]

/-- C6 amended: the segmenter is the three-strategy cascade with a later
strategy running only when every earlier one produced zero sections;
strategy-one spans are truncated at the earliest of the next marker, the
end of the marker's line, or the end of the text (shown by the
counterexample); sections are numbered 0, 1, ... in source order; empty
or whitespace-only input yields zero sections without raising; strategy
two keeps only stripped paragraphs longer than 50 characters; strategy
three keeps only stripped lines longer than 30 characters, capped at 100
sections. -/
theorem c6_segmenter_cascade (cs : List Char) :
    (cs.all isPySpace = true → split_comprehensive cs = []) ∧
    ((split_comprehensive cs).map Sec.order =
      List.range (split_comprehensive cs).length) ∧
    (seg_strategy1 cs ≠ [] → split_comprehensive cs = seg_strategy1 cs) ∧
    (seg_strategy1 cs = [] → seg_strategy2 cs ≠ [] →
      split_comprehensive cs = seg_strategy2 cs) ∧
    (seg_strategy1 cs = [] → seg_strategy2 cs = [] →
      split_comprehensive cs = seg_strategy3 cs) ∧
    (∀ s ∈ seg_strategy2 cs, 50 < s.content.length) ∧
    (∀ s ∈ seg_strategy3 cs, 30 < s.content.length) ∧
    (seg_strategy3 cs).length ≤ 100 := by
  refine ⟨?_, ?_, ?_, ?_, ?_, ?_, ?_, ?_⟩
  · intro hws
    rw [split_comprehensive]
    simp only [seg_strategy1_ws cs hws, seg_strategy2_ws cs hws,
      seg_strategy3_ws cs hws]
    simp
  · rw [split_comprehensive]
    by_cases h1 : seg_strategy1 cs = []
    · rw [h1]
      simp only [ne_eq, not_true_eq_false, if_false]
      by_cases h2 : seg_strategy2 cs = []
      · rw [h2]
        simp only [ne_eq, not_true_eq_false, if_false]
        exact seg_strategy3_orders cs
      · rw [if_pos h2]
        exact seg_strategy2_orders cs
    · rw [if_pos h1]
      rw [seg_strategy1]
      exact segCascade_orders _ cs
  · intro h1
    rw [split_comprehensive, if_pos h1]
  · intro h1 h2
    rw [split_comprehensive, h1]
    simp only [ne_eq, not_true_eq_false, if_false]
    rw [if_pos h2]
  · intro h1 h2
    rw [split_comprehensive, h1]
    simp only [ne_eq, not_true_eq_false, if_false]
    rw [h2]
    simp only [ne_eq, not_true_eq_false, if_false]
  · intro s hs
    have hc : s.content ∈ (seg_strategy2 cs).map Sec.content :=
      List.mem_map.mpr ⟨s, hs, rfl⟩
    rw [seg_strategy2_contents] at hc
    have := List.of_mem_filter hc
    simpa using this
  · intro s hs
    have hc : s.content ∈ (seg_strategy3 cs).map Sec.content :=
      List.mem_map.mpr ⟨s, hs, rfl⟩
    rw [seg_strategy3_contents] at hc
    have := List.of_mem_filter (List.take_subset _ _ hc)
    simpa using this
  · have : (seg_strategy3 cs).length =
        ((seg_strategy3 cs).map Sec.content).length := by
      rw [List.length_map]
    rw [this, seg_strategy3_contents]
    exact List.length_take_le _ _

/-- C6 witness: whitespace-only input yields zero sections, and the
two-chapter text's sections are numbered 0, 1 in source order. -/
theorem c6_witness :
    split_comprehensive "  \n \t".data = [] ∧
    (split_comprehensive textC6).map Sec.order =
      List.range (split_comprehensive textC6).length :=
  ⟨(c6_segmenter_cascade "  \n \t".data).1 (by decide),
   (c6_segmenter_cascade textC6).2.1⟩

end Vault
